import Mathlib

/-!
# Group chat server: wire codec, message cache, group registry, dispatcher

A shallow embedding of the server-side core of the repository

* `src/shared/protocol.h`  : `ChatPacket`, `toNetworkOrder`, `toHostOrder`
* `src/shared/cache.h`     : `CacheEntry`, `LRUCache`
* `src/shared/utils.h`     : `getCurrentTimestamp`
* `src/server/group_manager.cpp` : `ChatGroup`, `GroupManager`
* `src/server/main.cpp`    : the body of the receive loop of `handleClient`
* `src/server/thread_pool.cpp` : `Task`, `ThreadPool` with one worker

Conventions.

* Machine integers are natural numbers; a value of type `uintN_t` is a natural
  number below `2 ^ N` (`ChatPacket.WellFormed` collects these bounds for a
  packet) and every increment that can wrap is written with an explicit `%`.
* `std::unordered_map` is an association list with at most one binding per
  key (`mapFind`, `mapErase`, `mapAssign`, `mapModify`); `std::unordered_set`
  is a duplicate-free list.
* `std::list` is a list of nodes. Every node carries the identity it received
  when it was allocated, and a list iterator is such an identity, so that the
  iterators stored in `cacheMap` stay meaningful while the list is reordered.
* The wall clock is an explicit input: `now` is a reading of
  `std::chrono::system_clock` in clock ticks, `tps` is the number of ticks per
  second of that clock. One call of a cache operation, and the handling of one
  inbound packet, happen at one clock reading. Clock readings are unbounded
  integers (the 64-bit tick count of the C++ clock does not overflow).
* Mutexes and logging have no effect on the values computed and are left out.
* Threads meet only inside critical sections, so a run of the worker pool is a
  sequence of events (`PoolEvent`), each one critical section of some thread.
-/

namespace GroupChat

/-! ## Association lists standing for `std::unordered_map` -/

/-- Lookup, as done by `unordered_map::find`. -/
def mapFind {β : Type} : List (Nat × β) → Nat → Option β
  | [], _ => none
  | (k', v) :: rest, k => if k' = k then some v else mapFind rest k

/-- Removal of a key, as done by `unordered_map::erase`. -/
def mapErase {β : Type} (m : List (Nat × β)) (k : Nat) : List (Nat × β) :=
  m.filter (fun kv => decide (kv.1 ≠ k))

/-- Assignment `m[k] = v`: the binding of `k` is replaced or created. -/
def mapAssign {β : Type} (m : List (Nat × β)) (k : Nat) (v : β) : List (Nat × β) :=
  (k, v) :: mapErase m k

/-- In-place mutation of the object bound to `k` (the map itself is untouched). -/
def mapModify {β : Type} (m : List (Nat × β)) (k : Nat) (f : β → β) : List (Nat × β) :=
  m.map (fun kv => if kv.1 = k then (kv.1, f kv.2) else kv)

/-! ## Wire protocol (`src/shared/protocol.h`) -/

def MSG_TEXT : Nat := 1
def MSG_JOIN_GROUP : Nat := 2
def MSG_LEAVE_GROUP : Nat := 3
def MSG_CREATE_GROUP : Nat := 4
def MSG_LIST_GROUPS : Nat := 5
def MSG_HISTORY : Nat := 6
def MSG_AUDIO : Nat := 7
def MSG_VIDEO : Nat := 8
def MSG_ACK : Nat := 9
def MSG_ERROR : Nat := 10

/-- The packed struct `ChatPacket`: `uint8_t type`, `uint16_t groupID`,
`uint32_t timestamp`, `uint32_t senderID`, `uint16_t payloadSize`,
`char payload[256]` (a list of byte values). -/
structure ChatPacket where
  type : Nat
  groupID : Nat
  timestamp : Nat
  senderID : Nat
  payloadSize : Nat
  payload : List Nat
deriving DecidableEq

/-- The values a `ChatPacket` object can hold: every field within the range of
its C++ type, and a payload of exactly 256 bytes. -/
def ChatPacket.WellFormed (p : ChatPacket) : Prop :=
  p.type < 2 ^ 8 ∧ p.groupID < 2 ^ 16 ∧ p.timestamp < 2 ^ 32 ∧ p.senderID < 2 ^ 32 ∧
    p.payloadSize < 2 ^ 16 ∧ p.payload.length = 256 ∧ ∀ b ∈ p.payload, b < 256

instance (p : ChatPacket) : Decidable p.WellFormed := by
  unfold ChatPacket.WellFormed; infer_instance

/-- The default constructor `ChatPacket()`: all fields zero, payload zeroed. -/
def ChatPacket.new : ChatPacket :=
  { type := 0, groupID := 0, timestamp := 0, senderID := 0, payloadSize := 0,
    payload := List.replicate 256 0 }

/-- Exchange of the two bytes of a 16-bit value. -/
def bswap16 (x : Nat) : Nat := (x % 256) * 256 + (x / 256) % 256

/-- Reversal of the four bytes of a 32-bit value. -/
def bswap32 (x : Nat) : Nat :=
  (x % 256) * 16777216 + ((x / 256) % 256) * 65536 + ((x / 65536) % 256) * 256 +
    (x / 16777216) % 256

/-- The libc function `htons`: the identity on a big-endian host, the byte
exchange on a little-endian host. -/
def htons (littleEndian : Bool) (x : Nat) : Nat := if littleEndian then bswap16 x else x

/-- The libc function `htonl`. -/
def htonl (littleEndian : Bool) (x : Nat) : Nat := if littleEndian then bswap32 x else x

/-- The libc function `ntohs`. -/
def ntohs (littleEndian : Bool) (x : Nat) : Nat := if littleEndian then bswap16 x else x

/-- The libc function `ntohl`. -/
def ntohl (littleEndian : Bool) (x : Nat) : Nat := if littleEndian then bswap32 x else x

/-- Method `ChatPacket::toNetworkOrder` (protocol.h 37-42). -/
def ChatPacket.toNetworkOrder (littleEndian : Bool) (p : ChatPacket) : ChatPacket :=
  { p with
    groupID := htons littleEndian p.groupID
    timestamp := htonl littleEndian p.timestamp
    senderID := htonl littleEndian p.senderID
    payloadSize := htons littleEndian p.payloadSize }

/-- Method `ChatPacket::toHostOrder` (protocol.h 45-50). -/
def ChatPacket.toHostOrder (littleEndian : Bool) (p : ChatPacket) : ChatPacket :=
  { p with
    groupID := ntohs littleEndian p.groupID
    timestamp := ntohl littleEndian p.timestamp
    senderID := ntohl littleEndian p.senderID
    payloadSize := ntohs littleEndian p.payloadSize }

/-! ## Clock (`src/shared/utils.h`) -/

/-- Function `getCurrentTimestamp` (utils.h 53-59): the clock reading `now` (ticks since
the epoch) cast to whole seconds, truncating, then converted to `uint32_t`. -/
def getCurrentTimestamp (tps : Nat) (now : Int) : Nat :=
  ((now.tdiv (tps : Int)) % (2 ^ 32 : Int)).toNat

/-! ## Message cache (`src/shared/cache.h`) -/

/-- The struct `CacheEntry`: the packet, the clock reading taken by the
constructor, and the time to live in seconds (`uint32_t`). -/
structure CacheEntry where
  message : ChatPacket
  timestamp : Int
  ttl : Nat
deriving DecidableEq

/-- Method `CacheEntry::isExpired` (cache.h 22-26):
`duration_cast<seconds>(now - timestamp).count() > ttl`; the cast truncates
towards zero and the comparison is between signed 64-bit values. -/
def CacheEntry.isExpired (tps : Nat) (e : CacheEntry) (now : Int) : Bool :=
  decide ((now - e.timestamp).tdiv (tps : Int) > (e.ttl : Int))

/-- A node of `std::list<std::shared_ptr<CacheEntry>>`: the identity of the
node (what a list iterator designates) and the entry it points to. -/
structure ListNode where
  id : Nat
  entry : CacheEntry
deriving DecidableEq

/-- Method `LRUCache::makeKey` (cache.h 41-43):
`(static_cast<uint64_t>(groupID) << 32) | timestamp`. -/
def makeKey (groupID timestamp : Nat) : Nat :=
  ((groupID <<< 32) % 2 ^ 64) ||| timestamp

/-- The cache key of the packet held by a node. -/
def ListNode.key (n : ListNode) : Nat :=
  makeKey n.entry.message.groupID n.entry.message.timestamp

/-- Dereference of a list iterator: the entry of the node with identity `it`. -/
def nodeAt : List ListNode → Nat → Option CacheEntry
  | [], _ => none
  | n :: rest, it => if n.id = it then some n.entry else nodeAt rest it

/-- Method `std::list::erase(it)`: unlink the node with identity `it`. -/
def listErase (l : List ListNode) (it : Nat) : List ListNode :=
  l.filter (fun n => decide (n.id ≠ it))

/-- The class `LRUCache`. `nextNode` is the identity the next allocated list
node receives; the three statistics are `uint64_t` counters. -/
structure LRUCache where
  capacity : Nat
  cacheList : List ListNode
  cacheMap : List (Nat × Nat)
  nextNode : Nat
  hits : Nat
  misses : Nat
  evictions : Nat
deriving DecidableEq

/-- The constructor `LRUCache(cap)` (cache.h 46). -/
def LRUCache.new (cap : Nat) : LRUCache :=
  { capacity := cap, cacheList := [], cacheMap := [], nextNode := 0,
    hits := 0, misses := 0, evictions := 0 }

/-- First part of `put` (cache.h 53-58): "Remove if already exists". -/
def LRUCache.eraseExisting (c : LRUCache) (key : Nat) : LRUCache :=
  match mapFind c.cacheMap key with
  | some it =>
    { c with cacheList := listErase c.cacheList it, cacheMap := mapErase c.cacheMap key }
  | none => c

/-- Second part of `put` (cache.h 60-63): "Add to front". -/
def LRUCache.pushFront (c : LRUCache) (key : Nat) (entry : CacheEntry) : LRUCache :=
  { c with
    cacheList := { id := c.nextNode, entry := entry } :: c.cacheList
    cacheMap := mapAssign c.cacheMap key c.nextNode
    nextNode := c.nextNode + 1 }

/-- Third part of `put` (cache.h 65-72): "Evict if over capacity". -/
def LRUCache.evictIfOver (c : LRUCache) : LRUCache :=
  if c.cacheList.length > c.capacity then
    match c.cacheList.getLast? with
    | some last =>
      { c with
        cacheMap := mapErase c.cacheMap last.key
        cacheList := c.cacheList.dropLast
        evictions := (c.evictions + 1) % 2 ^ 64 }
    | none => c
  else c

/-- Method `LRUCache::put(packet, ttl)` (cache.h 48-73), called at clock reading `now`. -/
def LRUCache.put (c : LRUCache) (packet : ChatPacket) (ttl : Nat) (now : Int) : LRUCache :=
  let key := makeKey packet.groupID packet.timestamp
  ((c.eraseExisting key).pushFront key
    { message := packet, timestamp := now, ttl := ttl }).evictIfOver

/-- Method `LRUCache::get(groupID, timestamp, packet)` (cache.h 75-99), called at clock
reading `now`. The result is `some packet` when the C++ function returns true
and has written `packet`, `none` when it returns false. An iterator that
designates no node (which the C++ code would dereference with undefined
behaviour) yields `none` and no change. -/
def LRUCache.get (tps : Nat) (c : LRUCache) (groupID timestamp : Nat) (now : Int) :
    Option ChatPacket × LRUCache :=
  let key := makeKey groupID timestamp
  match mapFind c.cacheMap key with
  | none => (none, { c with misses := (c.misses + 1) % 2 ^ 64 })
  | some it =>
    match nodeAt c.cacheList it with
    | none => (none, c)
    | some e =>
      if e.isExpired tps now then
        (none, { c with
          cacheList := listErase c.cacheList it
          cacheMap := mapErase c.cacheMap key
          misses := (c.misses + 1) % 2 ^ 64 })
      else
        (some e.message, { c with
          cacheList := { id := it, entry := e } :: listErase c.cacheList it
          hits := (c.hits + 1) % 2 ^ 64 })

/-- The loop of `getGroupHistory` (cache.h 105-110) over the remaining nodes,
`history` being the vector built so far. -/
def historyScan (tps : Nat) (now : Int) (groupID limit : Nat) :
    List ListNode → List ChatPacket → List ChatPacket
  | [], history => history
  | n :: rest, history =>
    if n.entry.message.groupID = groupID ∧ n.entry.isExpired tps now = false then
      if (history ++ [n.entry.message]).length ≥ limit then history ++ [n.entry.message]
      else historyScan tps now groupID limit rest (history ++ [n.entry.message])
    else historyScan tps now groupID limit rest history

/-- Method `LRUCache::getGroupHistory(groupID, limit)` (cache.h 101-113); the cache is
not modified. -/
def LRUCache.getGroupHistory (tps : Nat) (c : LRUCache) (groupID limit : Nat) (now : Int) :
    List ChatPacket :=
  historyScan tps now groupID limit c.cacheList []

/-- The loop of `clearExpired` (cache.h 124-133) over the remaining nodes: the
nodes kept, and the key index after the erasures. -/
def clearLoop (tps : Nat) (now : Int) :
    List ListNode → List (Nat × Nat) → List ListNode × List (Nat × Nat)
  | [], m => ([], m)
  | n :: rest, m =>
    if n.entry.isExpired tps now then clearLoop tps now rest (mapErase m n.key)
    else ((n :: (clearLoop tps now rest m).1), (clearLoop tps now rest m).2)

/-- Method `LRUCache::clearExpired()` (cache.h 122-134). -/
def LRUCache.clearExpired (tps : Nat) (c : LRUCache) (now : Int) : LRUCache :=
  { c with
    cacheList := (clearLoop tps now c.cacheList c.cacheMap).1
    cacheMap := (clearLoop tps now c.cacheList c.cacheMap).2 }

/-- The cache states that arise from a cache newly constructed with capacity
`cap` by calls of its public operations, made at arbitrary clock readings on
packets within the range of their type. `getGroupHistory` only reads the
cache, so the state after it is the state before it. -/
inductive LRUCache.Reachable (tps : Nat) (cap : Nat) : LRUCache → Prop
  | new : LRUCache.Reachable tps cap (LRUCache.new cap)
  | put (c : LRUCache) (packet : ChatPacket) (ttl : Nat) (now : Int) :
      LRUCache.Reachable tps cap c → packet.WellFormed →
      LRUCache.Reachable tps cap (c.put packet ttl now)
  | get (c : LRUCache) (groupID timestamp : Nat) (now : Int) :
      LRUCache.Reachable tps cap c →
      LRUCache.Reachable tps cap (c.get tps groupID timestamp now).2
  | getGroupHistory (c : LRUCache) (groupID limit : Nat) (now : Int)
      (history : List ChatPacket) :
      LRUCache.Reachable tps cap c → history = c.getGroupHistory tps groupID limit now →
      LRUCache.Reachable tps cap c
  | clearExpired (c : LRUCache) (now : Int) :
      LRUCache.Reachable tps cap c → LRUCache.Reachable tps cap (c.clearExpired tps now)

/-- The cache holds an entry for the pair `(groupID, timestamp)`. -/
def LRUCache.holds (c : LRUCache) (groupID timestamp : Nat) : Prop :=
  ∃ n ∈ c.cacheList, n.entry.message.groupID = groupID ∧ n.entry.message.timestamp = timestamp

instance (c : LRUCache) (groupID timestamp : Nat) : Decidable (c.holds groupID timestamp) := by
  unfold LRUCache.holds; infer_instance

/-- Agreement of the recency list and the key index, as it holds between the
three parts of `put`: nodes have pairwise different keys and identities, the
identities are already allocated, the index binds each key at most once and
binds a key to an iterator exactly when the node designated by the iterator is
in the list and has that key, and every stored packet is within the range of
its type. -/
structure LRUCache.Core (c : LRUCache) : Prop where
  keys_nodup : (c.cacheList.map ListNode.key).Nodup
  ids_nodup : (c.cacheList.map ListNode.id).Nodup
  ids_lt : ∀ n ∈ c.cacheList, n.id < c.nextNode
  map_nodup : (c.cacheMap.map Prod.fst).Nodup
  index : ∀ k it, mapFind c.cacheMap k = some it ↔ ∃ n ∈ c.cacheList, n.id = it ∧ n.key = k
  wf : ∀ n ∈ c.cacheList, n.entry.message.WellFormed

/-- The invariant of the cache between calls: `Core` and the size bound. -/
structure LRUCache.Inv (c : LRUCache) : Prop where
  core : c.Core
  size_le : c.cacheList.length ≤ c.capacity

/-- A concrete packet: a TEXT message for group 258 with a one-byte payload. -/
def samplePacket : ChatPacket :=
  { type := 1, groupID := 258, timestamp := 1700000000, senderID := 7, payloadSize := 1,
    payload := 104 :: List.replicate 255 0 }

/-- A second concrete packet: the same message one second later. -/
def samplePacket2 : ChatPacket := { samplePacket with timestamp := 1700000001 }

/-- A concrete cache: capacity 1, holding `samplePacket` inserted at clock
reading 0 with a time to live of 3600 seconds. -/
def sampleCache : LRUCache := (LRUCache.new 1).put samplePacket 3600 0

/-- The cache has a node with the given key. -/
def LRUCache.hasKey (c : LRUCache) (key : Nat) : Prop := ∃ n ∈ c.cacheList, n.key = key

instance (c : LRUCache) (key : Nat) : Decidable (c.hasKey key) := by
  unfold LRUCache.hasKey; infer_instance

/-- The key under which `put` stores a packet. -/
def ChatPacket.key (p : ChatPacket) : Nat := makeKey p.groupID p.timestamp

/-- A sequence of `put` calls, each with its packet, time to live and clock
reading, the first of the list first. -/
def LRUCache.putAll (c : LRUCache) (puts : List (ChatPacket × Nat × Int)) : LRUCache :=
  puts.foldl (fun acc q => acc.put q.1 q.2.1 q.2.2) c

/-- A concrete packet with the group and timestamp of `samplePacket` and
another sender. -/
def samplePacketB : ChatPacket := { samplePacket with senderID := 9 }

/-- The test "the node holds a packet of this group and timestamp". -/
def samePair (groupID timestamp : Nat) (n : ListNode) : Bool :=
  decide (n.entry.message.groupID = groupID) && decide (n.entry.message.timestamp = timestamp)

/-- A third concrete packet: the same message two seconds later. -/
def samplePacket3 : ChatPacket := { samplePacket with timestamp := 1700000002 }

/-- A concrete cache of capacity 3 holding `samplePacket2` (front) and
`samplePacket` (back), both inserted at clock reading 0 with a time to live of
one second. -/
def sampleCacheTwo : LRUCache :=
  ((LRUCache.new 3).put samplePacket 1 0).put samplePacket2 1 0

/-- The test of the loop of `getGroupHistory` (cache.h 106): the node belongs
to the group and is not expired. -/
def historyMatch (tps : Nat) (now : Int) (groupID : Nat) (n : ListNode) : Bool :=
  decide (n.entry.message.groupID = groupID) && !n.entry.isExpired tps now

/-! ## Group registry (`src/server/group_manager.cpp`) -/

/-- The struct `ChatGroup`: `groupName` is the byte string of the name,
`members` the `unordered_set` of client identifiers. -/
structure ChatGroup where
  groupID : Nat
  groupName : List Nat
  members : List Nat
deriving DecidableEq

/-- Method `ChatGroup::addMember` (group_manager.cpp 20-23): set insertion. -/
def ChatGroup.addMember (g : ChatGroup) (clientID : Nat) : ChatGroup :=
  { g with members := if clientID ∈ g.members then g.members else clientID :: g.members }

/-- Method `ChatGroup::removeMember` (group_manager.cpp 25-28): set removal. -/
def ChatGroup.removeMember (g : ChatGroup) (clientID : Nat) : ChatGroup :=
  { g with members := g.members.filter (fun m => decide (m ≠ clientID)) }

/-- Method `ChatGroup::getMembers` (group_manager.cpp 30-33). -/
def ChatGroup.getMembers (g : ChatGroup) : List Nat := g.members

/-- The class `GroupManager`: `groups` maps a `uint16_t` group identifier to
its group object, `clientGroups` maps a client to its current group,
`nextGroupID` is a `uint16_t`. -/
structure GroupManager where
  groups : List (Nat × ChatGroup)
  clientGroups : List (Nat × Nat)
  nextGroupID : Nat
deriving DecidableEq

/-- Method `GroupManager::createGroup(name)` (group_manager.cpp 54-59): the returned
identifier and the registry afterwards. `nextGroupID++` is a 16-bit increment. -/
def GroupManager.createGroup (m : GroupManager) (name : List Nat) : Nat × GroupManager :=
  (m.nextGroupID,
    { m with
      groups := mapAssign m.groups m.nextGroupID
        { groupID := m.nextGroupID, groupName := name, members := [] }
      nextGroupID := (m.nextGroupID + 1) % 2 ^ 16 })

/-- The byte string of an ASCII literal. -/
def cstr (s : String) : List Nat := s.toList.map Char.toNat

/-- The constructor `GroupManager()` (group_manager.cpp 49-52): `nextGroupID`
starts at 1 and the group "General" is created. -/
def GroupManager.new : GroupManager :=
  (GroupManager.createGroup { groups := [], clientGroups := [], nextGroupID := 1 }
    (cstr "General")).2

/-- Method `GroupManager::joinGroup(clientID, groupID)` (group_manager.cpp 61-82): the
returned flag and the registry afterwards. -/
def GroupManager.joinGroup (m : GroupManager) (clientID groupID : Nat) : Bool × GroupManager :=
  match mapFind m.groups groupID with
  | none => (false, m)
  | some _ =>
    let left :=
      match mapFind m.clientGroups clientID with
      | some current => mapModify m.groups current (fun g => g.removeMember clientID)
      | none => m.groups
    (true,
      { m with
        groups := mapModify left groupID (fun g => g.addMember clientID)
        clientGroups := mapAssign m.clientGroups clientID groupID })

/-- Method `GroupManager::leaveGroup(clientID)` (group_manager.cpp 84-95). -/
def GroupManager.leaveGroup (m : GroupManager) (clientID : Nat) : GroupManager :=
  match mapFind m.clientGroups clientID with
  | some current =>
    { m with
      groups := mapModify m.groups current (fun g => g.removeMember clientID)
      clientGroups := mapErase m.clientGroups clientID }
  | none => m

/-- Method `GroupManager::getGroupMembers(groupID)` (group_manager.cpp 97-105). -/
def GroupManager.getGroupMembers (m : GroupManager) (groupID : Nat) : List Nat :=
  match mapFind m.groups groupID with
  | some g => g.getMembers
  | none => []

/-- Method `GroupManager::listGroups()` (group_manager.cpp 107-115). -/
def GroupManager.listGroups (m : GroupManager) : List (Nat × List Nat) :=
  m.groups.map (fun kv => (kv.1, kv.2.groupName))

/-- Method `GroupManager::getClientGroup(clientID)` (group_manager.cpp 117-125). -/
def GroupManager.getClientGroup (m : GroupManager) (clientID : Nat) : Nat :=
  match mapFind m.clientGroups clientID with
  | some g => g
  | none => 0

/-- One call of a public mutating operation of the registry; identifiers are
within the range of their C++ type by construction of the callers. -/
inductive RegistryOp where
  | createGroup (name : List Nat)
  | joinGroup (clientID groupID : Nat)
  | leaveGroup (clientID : Nat)
deriving DecidableEq

/-- The registry after one operation. -/
def GroupManager.apply (m : GroupManager) : RegistryOp → GroupManager
  | .createGroup name => (m.createGroup name).2
  | .joinGroup clientID groupID => (m.joinGroup clientID groupID).2
  | .leaveGroup clientID => m.leaveGroup clientID

/-- The registry after a sequence of operations, the first of the list first. -/
def GroupManager.run (m : GroupManager) (ops : List RegistryOp) : GroupManager :=
  ops.foldl GroupManager.apply m

/-- The number of `createGroup` calls in a sequence of operations. -/
def createCount : List RegistryOp → Nat
  | [] => 0
  | .createGroup _ :: rest => createCount rest + 1
  | _ :: rest => createCount rest

/-- The invariant of the registry: the group map binds each identifier at most
once, and every member of a group has that group as its current group in the
inverse index. -/
structure GroupManager.Inv (m : GroupManager) : Prop where
  groups_nodup : (m.groups.map Prod.fst).Nodup
  member_index : ∀ g grp c, mapFind m.groups g = some grp → c ∈ grp.members →
    mapFind m.clientGroups c = some g

/-- A concrete `JOIN_GROUP` request for group 99, as received from the wire on
a little-endian host (the group field holds the two bytes of 99 exchanged). -/
def sampleJoin : ChatPacket :=
  { type := 2, groupID := 25344, timestamp := 0, senderID := 0, payloadSize := 0,
    payload := List.replicate 256 0 }

/-- The registry has seen `k` calls of `createGroup` since construction: the
next identifier is `2 + k` as a 16-bit value, and as long as that counter has
not wrapped every existing group has an identifier from 1 up to `1 + k`. -/
def GroupManager.Tracks (m : GroupManager) (k : Nat) : Prop :=
  m.nextGroupID = (2 + k) % 2 ^ 16 ∧
    (2 + k ≤ 2 ^ 16 → ∀ g, mapFind m.groups g ≠ none → 1 ≤ g ∧ g < 2 + k)

/-! ## Connection dispatcher (`src/server/main.cpp`) -/

/-- The C string stored at the start of a byte buffer: the bytes before the
first zero byte (what `strlen`, `std::string(const char*)` and the `%s`
conversion read). -/
def cString (bytes : List Nat) : List Nat := bytes.takeWhile (fun b => decide (b ≠ 0))

/-- Function `strlen`. -/
def strlen (bytes : List Nat) : Nat := (cString bytes).length

/-- The decimal digits of a number, as `%d` and `std::to_string` print a
non-negative value. -/
def decimal (n : Nat) : List Nat := cstr (Nat.repr n)

/-- The 256-byte payload of a freshly constructed (zeroed) response after
`snprintf(response.payload, sizeof(response.payload), ...)` has produced the
characters `text`: at most 255 of them, then zero bytes. -/
def snprintfPayload (text : List Nat) : List Nat :=
  text.take 255 ++ List.replicate (256 - (text.take 255).length) 0

/-- The global objects of the server that the dispatcher works on. -/
structure Server where
  messageCache : LRUCache
  groupManager : GroupManager
deriving DecidableEq

/-- The globals as constructed at start-up (main.cpp 14-15). -/
def Server.new : Server :=
  { messageCache := LRUCache.new 200, groupManager := GroupManager.new }

/-- End of the loop body (main.cpp 137-139): `payloadSize = strlen(payload)`,
conversion to network order; the result is what `send` transmits. -/
def sendResponse (littleEndian : Bool) (response : ChatPacket) : ChatPacket :=
  ({ response with payloadSize := strlen response.payload }).toNetworkOrder littleEndian

/-- The text of the `LIST_GROUPS` answer (main.cpp 90-93). -/
def groupListText (groups : List (Nat × List Nat)) : List Nat :=
  (groups.map (fun g => decimal g.1 ++ cstr ":" ++ g.2 ++ cstr ";")).flatten

/-- One turn of the receive loop of `handleClient` (main.cpp 43-139) for a
received buffer `raw`, handled at clock reading `now`: the server state
afterwards and the packets sent on the socket of the client, in order. The
group name of `CREATE_GROUP` is the C string at the start of the payload; a
payload without a zero byte, which the C++ code would read past its end, gives
all 256 bytes. -/
def handlePacket (littleEndian : Bool) (tps : Nat) (now : Int) (srv : Server)
    (clientID : Nat) (raw : ChatPacket) : Server × List ChatPacket :=
  let packet := raw.toHostOrder littleEndian
  let response : ChatPacket :=
    { ChatPacket.new with senderID := 0, timestamp := getCurrentTimestamp tps now }
  if packet.type = MSG_JOIN_GROUP then
    let groupID := packet.groupID
    match srv.groupManager.joinGroup clientID groupID with
    | (true, gm) =>
      let history := srv.messageCache.getGroupHistory tps groupID 10 now
      ({ srv with groupManager := gm },
        history.map (ChatPacket.toNetworkOrder littleEndian) ++
          [sendResponse littleEndian
            { response with
              type := MSG_ACK
              payload := snprintfPayload (cstr "Joined group " ++ decimal groupID) }])
    | (false, gm) =>
      ({ srv with groupManager := gm },
        [sendResponse littleEndian
          { response with
            type := MSG_ERROR
            payload := snprintfPayload (cstr "Failed to join group " ++ decimal groupID) }])
  else if packet.type = MSG_CREATE_GROUP then
    let groupName := cString packet.payload
    let created := srv.groupManager.createGroup groupName
    ({ srv with groupManager := created.2 },
      [sendResponse littleEndian
        { response with
          type := MSG_ACK
          groupID := created.1
          payload := snprintfPayload
            (cstr "Created group " ++ [39] ++ cString groupName ++ [39] ++
              cstr " with ID " ++ decimal created.1) }])
  else if packet.type = MSG_LIST_GROUPS then
    (srv,
      [sendResponse littleEndian
        { response with
          type := MSG_ACK
          payload := snprintfPayload (cString (groupListText srv.groupManager.listGroups)) }])
  else if packet.type = MSG_TEXT then
    let stamped : ChatPacket :=
      { packet with senderID := clientID, timestamp := getCurrentTimestamp tps now }
    ({ srv with messageCache := srv.messageCache.put stamped 3600 now },
      [sendResponse littleEndian
        { response with type := MSG_ACK, payload := snprintfPayload (cstr "Message sent") }])
  else if packet.type = MSG_LEAVE_GROUP then
    ({ srv with groupManager := srv.groupManager.leaveGroup clientID },
      [sendResponse littleEndian
        { response with type := MSG_ACK, payload := snprintfPayload (cstr "Left group") }])
  else
    (srv,
      [sendResponse littleEndian
        { response with
          type := MSG_ERROR
          payload := snprintfPayload (cstr "Unknown message type") }])

/-- The function `handleClient` (main.cpp 28-143) for one connection on which
the buffers `inbound` arrive, each with the clock reading at which it is
handled, before the connection closes: on the failed read the client leaves
its group. -/
def handleClient (littleEndian : Bool) (tps : Nat) (clientID : Nat) :
    Server → List (Int × ChatPacket) → Server × List ChatPacket
  | srv, [] => ({ srv with groupManager := srv.groupManager.leaveGroup clientID }, [])
  | srv, (now, raw) :: rest =>
    let turn := handlePacket littleEndian tps now srv clientID raw
    let after := handleClient littleEndian tps clientID turn.1 rest
    (after.1, turn.2 ++ after.2)

/-- The `send` calls made by one turn of the receive loop, each with the socket
it writes to. Both calls of the loop body (main.cpp 66 and 139) pass
`client_socket`, the socket of the connection being served; the loop over the
members of the group in the `MSG_TEXT` case (main.cpp 106-112) only logs. -/
def sendCalls (littleEndian : Bool) (tps : Nat) (now : Int) (srv : Server)
    (client_socket clientID : Nat) (raw : ChatPacket) : List (Nat × ChatPacket) :=
  (handlePacket littleEndian tps now srv clientID raw).2.map (fun p => (client_socket, p))

/-- A concrete `TEXT` message for group 1 as received from the wire on a
little-endian host (the group field holds the two bytes of 1 exchanged), with
sender and timestamp fields filled in by the client and the payload "hi". -/
def sampleText : ChatPacket :=
  { type := 1, groupID := 256, timestamp := 12345, senderID := 99, payloadSize := 512,
    payload := 104 :: 105 :: List.replicate 254 0 }

/-- The same message as the dispatcher stores it when it serves client 7 at
clock reading 5000 of a clock with 1000 ticks per second. -/
def sampleTextStamped : ChatPacket :=
  { type := 1, groupID := 1, timestamp := 5, senderID := 7, payloadSize := 2,
    payload := 104 :: 105 :: List.replicate 254 0 }

/-- A concrete server in which clients 7 and 8 are the members of group 1. -/
def sampleServer : Server :=
  { messageCache := LRUCache.new 200
    groupManager := GroupManager.new.run [RegistryOp.joinGroup 7 1, RegistryOp.joinGroup 8 1] }

/-! ## Task scheduler (`src/server/thread_pool.cpp`) -/

/-- The enum `SchedulingPolicy` (thread_pool.cpp 13-16). -/
inductive SchedulingPolicy where
  | ROUND_ROBIN
  | SHORTEST_JOB_FIRST
deriving DecidableEq

/-- The struct `Task` (thread_pool.cpp 18-30). `function` names the callable
the task holds; `estimatedTime` and `taskID` are `uint32_t` values. -/
structure Task where
  function : Nat
  estimatedTime : Nat
  taskID : Nat
deriving DecidableEq

/-- The comparison `Task::operator<` (thread_pool.cpp 26-29):
`estimatedTime > other.estimatedTime`. -/
def Task.lt (t other : Task) : Bool := decide (t.estimatedTime > other.estimatedTime)

/-- The element `std::priority_queue<Task>::top` returns: an element of the
queue that is not less (by `operator<`) than any element of the queue. The
standard leaves open which one when several qualify; here it is the one that
was pushed first. The queue is kept as the list of its elements in the order
they were pushed. -/
def priorityTop (q : List Task) : Option Task :=
  q.find? (fun t => q.all (fun u => !t.lt u))

/-- The class `ThreadPool` (thread_pool.cpp 32-119) with one worker thread.
`rrQueue` has its front at the head of the list. `executed` records the calls
of `task.function()` made by the worker, in order, and `exited` records that
the worker thread has returned. The two statistics are `uint64_t` counters. -/
structure ThreadPool where
  rrQueue : List Task
  sjfQueue : List Task
  stop : Bool
  policy : SchedulingPolicy
  tasksProcessed : Nat
  totalWaitTime : Nat
  executed : List Task
  exited : Bool
deriving DecidableEq

/-- The constructor `ThreadPool(1, p)` (thread_pool.cpp 48-87): empty queues,
`stop` false, counters zero, the worker started. -/
def ThreadPool.new (p : SchedulingPolicy) : ThreadPool :=
  { rrQueue := [], sjfQueue := [], stop := false, policy := p, tasksProcessed := 0,
    totalWaitTime := 0, executed := [], exited := false }

/-- Method `ThreadPool::enqueue(task, estimatedTime, taskID)`
(thread_pool.cpp 102-112): the task is appended to the queue of the policy. -/
def ThreadPool.enqueue (p : ThreadPool) (task : Task) : ThreadPool :=
  if p.policy = SchedulingPolicy.ROUND_ROBIN then { p with rrQueue := p.rrQueue ++ [task] }
  else { p with sjfQueue := p.sjfQueue ++ [task] }

/-- The selection made by a worker inside its critical section
(thread_pool.cpp 64-72): the task taken and the pool without it, or nothing
when the branch `continue` is taken. -/
def ThreadPool.dequeue (p : ThreadPool) : Option (Task × ThreadPool) :=
  if p.policy = SchedulingPolicy.ROUND_ROBIN ∧ p.rrQueue ≠ [] then
    match p.rrQueue with
    | task :: rest => some (task, { p with rrQueue := rest })
    | [] => none
  else if p.policy = SchedulingPolicy.SHORTEST_JOB_FIRST ∧ p.sjfQueue ≠ [] then
    match priorityTop p.sjfQueue with
    | some task => some (task, { p with sjfQueue := p.sjfQueue.erase task })
    | none => none
  else none

/-- One pass of the worker through its loop (thread_pool.cpp 53-84), the task
taking `elapsed` microseconds: a worker that has returned does nothing; while
the wait condition is false it stays blocked; on `stop` with empty queues it
returns; otherwise it dequeues a task, runs it and updates the statistics. -/
def ThreadPool.workerTurn (p : ThreadPool) (elapsed : Nat) : ThreadPool :=
  if p.exited then p
  else if ¬ (p.stop = true ∨ p.rrQueue ≠ [] ∨ p.sjfQueue ≠ []) then p
  else if p.stop = true ∧ p.rrQueue = [] ∧ p.sjfQueue = [] then { p with exited := true }
  else
    match p.dequeue with
    | some (task, rest) =>
      { rest with
        executed := rest.executed ++ [task]
        tasksProcessed := (rest.tasksProcessed + 1) % 2 ^ 64
        totalWaitTime := (rest.totalWaitTime + elapsed) % 2 ^ 64 }
    | none => p

/-- First part of the destructor (thread_pool.cpp 89-94): `stop` is set. -/
def ThreadPool.shutdown (p : ThreadPool) : ThreadPool := { p with stop := true }

/-- Method `ThreadPool::getStats` (thread_pool.cpp 114-118): the number of tasks
processed and the average time per task. -/
def ThreadPool.getStats (p : ThreadPool) : Nat × Nat :=
  (p.tasksProcessed, if p.tasksProcessed > 0 then p.totalWaitTime / p.tasksProcessed else 0)

/-- What happens to a pool, one critical section at a time: a call of
`enqueue` by some thread, a pass of the worker through its loop, the start of
the destructor. -/
inductive PoolEvent where
  | enqueue (task : Task)
  | workerTurn (elapsed : Nat)
  | shutdown
deriving DecidableEq

/-- The pool after one event. -/
def ThreadPool.step (p : ThreadPool) : PoolEvent → ThreadPool
  | .enqueue task => p.enqueue task
  | .workerTurn elapsed => p.workerTurn elapsed
  | .shutdown => p.shutdown

/-- The pool after a sequence of events, the first of the list first. -/
def ThreadPool.run (p : ThreadPool) (events : List PoolEvent) : ThreadPool :=
  events.foldl ThreadPool.step p

/-- The tasks passed to `enqueue` in a sequence of events, in order. -/
def enqueuedTasks : List PoolEvent → List Task
  | [] => []
  | .enqueue task :: rest => task :: enqueuedTasks rest
  | _ :: rest => enqueuedTasks rest

/-- Three concrete tasks with the estimated times 30, 10 and 20. -/
def sampleTasks : List Task :=
  [{ function := 0, estimatedTime := 30, taskID := 1 },
    { function := 1, estimatedTime := 10, taskID := 2 },
    { function := 2, estimatedTime := 20, taskID := 3 }]

/-! ## Wire codec (C1) -/

theorem bswap16_bswap16 (x : Nat) (h : x < 2 ^ 16) : bswap16 (bswap16 x) = x := by
  unfold bswap16
  have h1 : (x % 256 * 256 + x / 256 % 256) % 256 = x / 256 % 256 := by omega
  have h2 : (x % 256 * 256 + x / 256 % 256) / 256 = x % 256 := by omega
  rw [h1, h2]; omega

theorem bswap16_lt (x : Nat) : bswap16 x < 2 ^ 16 := by
  unfold bswap16; omega

theorem bytes32 (x : Nat) (h : x < 2 ^ 32) :
    ∃ a b c d, a < 256 ∧ b < 256 ∧ c < 256 ∧ d < 256 ∧
      x = a * 16777216 + b * 65536 + c * 256 + d :=
  ⟨x / 16777216, x / 65536 % 256, x / 256 % 256, x % 256, by omega, by omega, by omega, by omega,
    by omega⟩

theorem bswap32_bytes (a b c d : Nat) (ha : a < 256) (hb : b < 256) (hc : c < 256)
    (hd : d < 256) :
    bswap32 (a * 16777216 + b * 65536 + c * 256 + d) =
      d * 16777216 + c * 65536 + b * 256 + a := by
  unfold bswap32
  have h1 : (a * 16777216 + b * 65536 + c * 256 + d) % 256 = d := by omega
  have h2 : (a * 16777216 + b * 65536 + c * 256 + d) / 256 % 256 = c := by omega
  have h3 : (a * 16777216 + b * 65536 + c * 256 + d) / 65536 % 256 = b := by omega
  have h4 : (a * 16777216 + b * 65536 + c * 256 + d) / 16777216 % 256 = a := by omega
  rw [h1, h2, h3, h4]

theorem bswap32_bswap32 (x : Nat) (h : x < 2 ^ 32) : bswap32 (bswap32 x) = x := by
  obtain ⟨a, b, c, d, ha, hb, hc, hd, rfl⟩ := bytes32 x h
  rw [bswap32_bytes a b c d ha hb hc hd, bswap32_bytes d c b a hd hc hb ha]

theorem bswap32_lt (x : Nat) : bswap32 x < 2 ^ 32 := by
  unfold bswap32; omega

theorem toHostOrder_wellFormed (le : Bool) (p : ChatPacket) (h : p.WellFormed) :
    (p.toHostOrder le).WellFormed := by
  obtain ⟨h1, h2, h3, h4, h5, h6, h7⟩ := h
  cases le
  · exact ⟨h1, h2, h3, h4, h5, h6, h7⟩
  · exact ⟨h1, bswap16_lt _, bswap32_lt _, bswap32_lt _, bswap16_lt _, h6, h7⟩

/-- C1. Codec round trip: for every packet whose fields are within the range of
their types, on a host of either byte order, `toHostOrder` after
`toNetworkOrder` gives back the packet, field for field; neither conversion
changes `type` or `payload`. -/
theorem codec_round_trip (littleEndian : Bool) (p : ChatPacket) (h : p.WellFormed) :
    (p.toNetworkOrder littleEndian).toHostOrder littleEndian = p ∧
    (p.toNetworkOrder littleEndian).type = p.type ∧
    (p.toNetworkOrder littleEndian).payload = p.payload ∧
    (p.toHostOrder littleEndian).type = p.type ∧
    (p.toHostOrder littleEndian).payload = p.payload := by
  obtain ⟨_, h2, h3, h4, h5, _, _⟩ := h
  refine ⟨?_, rfl, rfl, rfl, rfl⟩
  cases littleEndian
  · rfl
  · simp only [ChatPacket.toNetworkOrder, ChatPacket.toHostOrder, htons, htonl, ntohs, ntohl,
      if_true, bswap16_bswap16 _ h2, bswap32_bswap32 _ h3, bswap32_bswap32 _ h4,
      bswap16_bswap16 _ h5]

theorem samplePacket_wellFormed : samplePacket.WellFormed := by
  refine ⟨by decide, by decide, by decide, by decide, by decide, ?_, ?_⟩
  · simp only [samplePacket, List.length_cons, List.length_replicate]
  · intro b hb
    simp only [samplePacket, List.mem_cons, List.mem_replicate] at hb
    omega

/-- C1, witness: the round trip on a concrete TEXT packet, little-endian host. -/
theorem codec_round_trip_witness :
    samplePacket.WellFormed ∧
    (samplePacket.toNetworkOrder true).groupID = 513 ∧
    (samplePacket.toNetworkOrder true).toHostOrder true = samplePacket :=
  ⟨samplePacket_wellFormed, by decide, (codec_round_trip true samplePacket samplePacket_wellFormed).1⟩

/-! ## Association lists -/

theorem mapFind_cons {β : Type} (a : Nat) (v : β) (rest : List (Nat × β)) (k : Nat) :
    mapFind ((a, v) :: rest) k = if a = k then some v else mapFind rest k := rfl

theorem mapErase_cons {β : Type} (a : Nat) (v : β) (rest : List (Nat × β)) (k : Nat) :
    mapErase ((a, v) :: rest) k = if a = k then mapErase rest k else (a, v) :: mapErase rest k := by
  unfold mapErase
  by_cases h : a = k <;> simp [List.filter_cons, h]

theorem mapModify_cons {β : Type} (a : Nat) (v : β) (rest : List (Nat × β)) (k : Nat)
    (f : β → β) :
    mapModify ((a, v) :: rest) k f =
      (if a = k then (a, f v) else (a, v)) :: mapModify rest k f := by
  unfold mapModify
  by_cases h : a = k <;> simp [h]

theorem mapFind_mapErase {β : Type} (m : List (Nat × β)) (k k' : Nat) :
    mapFind (mapErase m k) k' = if k' = k then none else mapFind m k' := by
  induction m with
  | nil => simp [mapErase, mapFind]
  | cons kv rest ih =>
    obtain ⟨a, v⟩ := kv
    rw [mapErase_cons]
    by_cases ha : a = k
    · rw [if_pos ha, ih, mapFind_cons]
      by_cases hk : k' = k
      · simp [hk]
      · have : ¬ a = k' := fun h => hk (h.symm.trans ha)
        simp [hk, this]
    · rw [if_neg ha, mapFind_cons, mapFind_cons, ih]
      by_cases hk : k' = k
      · subst hk
        simp [ha]
      · simp [hk]

theorem mapFind_mapAssign {β : Type} (m : List (Nat × β)) (k k' : Nat) (v : β) :
    mapFind (mapAssign m k v) k' = if k' = k then some v else mapFind m k' := by
  unfold mapAssign
  rw [mapFind_cons, mapFind_mapErase]
  by_cases hk : k' = k
  · simp [hk]
  · have : ¬ k = k' := fun h => hk h.symm
    simp [hk, this]

theorem mapFind_mapModify {β : Type} (m : List (Nat × β)) (k k' : Nat) (f : β → β) :
    mapFind (mapModify m k f) k' = if k' = k then (mapFind m k').map f else mapFind m k' := by
  induction m with
  | nil => simp [mapModify, mapFind]
  | cons kv rest ih =>
    obtain ⟨a, v⟩ := kv
    rw [mapModify_cons]
    by_cases ha : a = k
    · rw [if_pos ha, mapFind_cons, mapFind_cons, ih]
      by_cases hk : k' = k
      · simp [hk, ha]
      · have : ¬ a = k' := fun h => hk (h.symm.trans ha)
        simp [hk, this]
    · rw [if_neg ha, mapFind_cons, mapFind_cons, ih]
      by_cases hk : k' = k
      · subst hk
        simp [ha]
      · simp [hk]

theorem mapFind_some_mem {β : Type} (m : List (Nat × β)) (k : Nat) (v : β)
    (h : mapFind m k = some v) : (k, v) ∈ m := by
  induction m with
  | nil => simp [mapFind] at h
  | cons kv rest ih =>
    obtain ⟨a, w⟩ := kv
    rw [mapFind_cons] at h
    by_cases ha : a = k
    · rw [if_pos ha] at h
      simp only [Option.some.injEq] at h
      simp [ha, h]
    · rw [if_neg ha] at h
      exact List.mem_cons_of_mem _ (ih h)

theorem mapFind_none_iff {β : Type} (m : List (Nat × β)) (k : Nat) :
    mapFind m k = none ↔ k ∉ m.map Prod.fst := by
  induction m with
  | nil => simp [mapFind]
  | cons kv rest ih =>
    obtain ⟨a, w⟩ := kv
    rw [mapFind_cons]
    by_cases ha : a = k
    · simp [ha]
    · have : ¬ k = a := fun h => ha h.symm
      simp [ha, this, ih]

theorem mapErase_keys_nodup {β : Type} (m : List (Nat × β)) (k : Nat)
    (h : (m.map Prod.fst).Nodup) : ((mapErase m k).map Prod.fst).Nodup :=
  h.sublist ((List.filter_sublist m).map Prod.fst)

theorem mapErase_not_mem {β : Type} (m : List (Nat × β)) (k : Nat) :
    k ∉ (mapErase m k).map Prod.fst := by
  simp [mapErase]

theorem mapAssign_keys_nodup {β : Type} (m : List (Nat × β)) (k : Nat) (v : β)
    (h : (m.map Prod.fst).Nodup) : ((mapAssign m k v).map Prod.fst).Nodup := by
  unfold mapAssign
  rw [List.map_cons, List.nodup_cons]
  exact ⟨mapErase_not_mem m k, mapErase_keys_nodup m k h⟩

/-! ## The recency list and the key index: the three parts of `put` -/

theorem nodeAt_some_mem (l : List ListNode) (it : Nat) (e : CacheEntry)
    (h : nodeAt l it = some e) : ({ id := it, entry := e } : ListNode) ∈ l := by
  induction l with
  | nil => simp [nodeAt] at h
  | cons n rest ih =>
    unfold nodeAt at h
    by_cases hn : n.id = it
    · rw [if_pos hn] at h
      simp only [Option.some.injEq] at h
      have : n = { id := it, entry := e } := by cases n; simp_all
      simp [this]
    · rw [if_neg hn] at h
      exact List.mem_cons_of_mem _ (ih h)

theorem nodeAt_of_mem (l : List ListNode) (n : ListNode) (hn : n ∈ l)
    (hnd : (l.map ListNode.id).Nodup) : nodeAt l n.id = some n.entry := by
  induction l with
  | nil => simp at hn
  | cons m rest ih =>
    unfold nodeAt
    rw [List.map_cons, List.nodup_cons] at hnd
    by_cases hm : m.id = n.id
    · rw [if_pos hm]
      rcases List.mem_cons.mp hn with h | h
      · rw [h]
      · exact absurd (hm ▸ List.mem_map_of_mem ListNode.id h) hnd.1
    · rw [if_neg hm]
      rcases List.mem_cons.mp hn with h | h
      · exact absurd (h ▸ rfl) hm
      · exact ih h hnd.2

theorem LRUCache.Core.key_inj {c : LRUCache} (h : c.Core) {n m : ListNode}
    (hn : n ∈ c.cacheList) (hm : m ∈ c.cacheList) (hk : n.key = m.key) : n = m :=
  List.inj_on_of_nodup_map h.keys_nodup hn hm hk

theorem LRUCache.Core.id_inj {c : LRUCache} (h : c.Core) {n m : ListNode}
    (hn : n ∈ c.cacheList) (hm : m ∈ c.cacheList) (hk : n.id = m.id) : n = m :=
  List.inj_on_of_nodup_map h.ids_nodup hn hm hk

theorem LRUCache.Core.find_of_mem {c : LRUCache} (h : c.Core) {n : ListNode}
    (hn : n ∈ c.cacheList) : mapFind c.cacheMap n.key = some n.id :=
  (h.index n.key n.id).mpr ⟨n, hn, rfl, rfl⟩

theorem LRUCache.Core.find_none {c : LRUCache} (h : c.Core) (key : Nat)
    (hk : ∀ n ∈ c.cacheList, n.key ≠ key) : mapFind c.cacheMap key = none := by
  cases hf : mapFind c.cacheMap key with
  | none => rfl
  | some it =>
    obtain ⟨n, hn, -, hkey⟩ := (h.index key it).mp hf
    exact absurd hkey (hk n hn)

theorem LRUCache.Core.listErase_eq {c : LRUCache} (h : c.Core) {n : ListNode}
    (hn : n ∈ c.cacheList) :
    listErase c.cacheList n.id = c.cacheList.filter (fun m => decide (m.key ≠ n.key)) := by
  unfold listErase
  apply List.filter_congr
  intro m hm
  by_cases hid : m.id = n.id
  · have : m = n := h.id_inj hm hn hid
    simp [this]
  · have : m.key ≠ n.key := fun hk => hid (congrArg ListNode.id (h.key_inj hm hn hk))
    simp [hid, this]

/-- After the first part of `put` the list is the old list without the node
of the given key. -/
theorem eraseExisting_list (c : LRUCache) (h : c.Core) (key : Nat) :
    (c.eraseExisting key).cacheList = c.cacheList.filter (fun m => decide (m.key ≠ key)) := by
  unfold LRUCache.eraseExisting
  cases hf : mapFind c.cacheMap key with
  | none =>
    simp only
    symm
    rw [List.filter_eq_self]
    intro n hn
    have : n.key ≠ key := by
      intro hk
      rw [← hk, h.find_of_mem hn] at hf
      exact Option.noConfusion hf
    simp [this]
  | some it =>
    obtain ⟨n, hn, hid, hkey⟩ := (h.index key it).mp hf
    simp only
    rw [← hid, ← hkey]
    exact h.listErase_eq hn

theorem eraseExisting_find (c : LRUCache) (key k : Nat) :
    mapFind (c.eraseExisting key).cacheMap k = if k = key then none else mapFind c.cacheMap k := by
  unfold LRUCache.eraseExisting
  cases hf : mapFind c.cacheMap key with
  | none =>
    simp only
    by_cases hk : k = key
    · rw [if_pos hk, hk, hf]
    · rw [if_neg hk]
  | some it =>
    simp only
    exact mapFind_mapErase _ _ _

theorem eraseExisting_fields (c : LRUCache) (key : Nat) :
    (c.eraseExisting key).capacity = c.capacity ∧
    (c.eraseExisting key).nextNode = c.nextNode ∧
    (c.eraseExisting key).hits = c.hits ∧
    (c.eraseExisting key).misses = c.misses ∧
    (c.eraseExisting key).evictions = c.evictions := by
  unfold LRUCache.eraseExisting
  cases mapFind c.cacheMap key <;> simp

theorem eraseExisting_map_nodup (c : LRUCache) (key : Nat)
    (h : (c.cacheMap.map Prod.fst).Nodup) :
    ((c.eraseExisting key).cacheMap.map Prod.fst).Nodup := by
  unfold LRUCache.eraseExisting
  cases mapFind c.cacheMap key with
  | none => exact h
  | some it => exact mapErase_keys_nodup _ _ h

theorem eraseExisting_core (c : LRUCache) (h : c.Core) (key : Nat) :
    (c.eraseExisting key).Core := by
  have hl := eraseExisting_list c h key
  refine ⟨?_, ?_, ?_, eraseExisting_map_nodup c key h.map_nodup, ?_, ?_⟩
  · rw [hl]; exact h.keys_nodup.sublist ((List.filter_sublist _).map _)
  · rw [hl]; exact h.ids_nodup.sublist ((List.filter_sublist _).map _)
  · intro n hn
    rw [hl] at hn
    rw [(eraseExisting_fields c key).2.1]
    exact h.ids_lt n (List.mem_filter.mp hn).1
  · intro k it
    rw [eraseExisting_find, hl]
    by_cases hk : k = key
    · rw [if_pos hk]
      constructor
      · intro hf; exact Option.noConfusion hf
      · rintro ⟨n, hn, -, hkey⟩
        have := (List.mem_filter.mp hn).2
        simp [hkey, hk] at this
    · rw [if_neg hk, h.index]
      constructor
      · rintro ⟨n, hn, hid, hkey⟩
        exact ⟨n, List.mem_filter.mpr ⟨hn, by simp [hkey, hk]⟩, hid, hkey⟩
      · rintro ⟨n, hn, hid, hkey⟩
        exact ⟨n, (List.mem_filter.mp hn).1, hid, hkey⟩
  · intro n hn
    rw [hl] at hn
    exact h.wf n (List.mem_filter.mp hn).1

theorem eraseExisting_no_key (c : LRUCache) (h : c.Core) (key : Nat) :
    ∀ n ∈ (c.eraseExisting key).cacheList, n.key ≠ key := by
  intro n hn
  rw [eraseExisting_list c h key] at hn
  simpa using (List.mem_filter.mp hn).2

theorem pushFront_core (c : LRUCache) (h : c.Core) (key : Nat) (e : CacheEntry)
    (hfresh : ∀ n ∈ c.cacheList, n.key ≠ key)
    (hkey : makeKey e.message.groupID e.message.timestamp = key)
    (hwf : e.message.WellFormed) : (c.pushFront key e).Core := by
  unfold LRUCache.pushFront
  refine ⟨?_, ?_, ?_, mapAssign_keys_nodup _ _ _ h.map_nodup, ?_, ?_⟩
  · simp only [List.map_cons, List.nodup_cons]
    refine ⟨?_, h.keys_nodup⟩
    intro hmem
    obtain ⟨n, hn, hnk⟩ := List.mem_map.mp hmem
    exact hfresh n hn (hnk.trans hkey)
  · simp only [List.map_cons, List.nodup_cons]
    refine ⟨?_, h.ids_nodup⟩
    intro hmem
    obtain ⟨n, hn, hnid⟩ := List.mem_map.mp hmem
    have := h.ids_lt n hn
    have hnid' : n.id = c.nextNode := hnid
    omega
  · intro n hn
    show n.id < c.nextNode + 1
    rcases List.mem_cons.mp hn with rfl | hn
    · exact Nat.lt_succ_self _
    · exact Nat.lt_succ_of_lt (h.ids_lt n hn)
  · intro k it
    simp only
    rw [mapFind_mapAssign]
    by_cases hk : k = key
    · rw [if_pos hk]
      constructor
      · intro hf
        simp only [Option.some.injEq] at hf
        exact ⟨_, List.mem_cons_self _ _, hf, by rw [hk]; exact hkey⟩
      · rintro ⟨n, hn, hid, hnk⟩
        rcases List.mem_cons.mp hn with rfl | hn
        · simp only at hid; rw [hid]
        · exact absurd (hnk.trans hk) (hfresh n hn)
    · rw [if_neg hk, h.index]
      constructor
      · rintro ⟨n, hn, hid, hnk⟩
        exact ⟨n, List.mem_cons_of_mem _ hn, hid, hnk⟩
      · rintro ⟨n, hn, hid, hnk⟩
        rcases List.mem_cons.mp hn with rfl | hn
        · exact absurd (hnk.symm.trans hkey) hk
        · exact ⟨n, hn, hid, hnk⟩
  · intro n hn
    simp only at hn
    rcases List.mem_cons.mp hn with rfl | hn
    · exact hwf
    · exact h.wf n hn

theorem evictIfOver_list (c : LRUCache) (hlen : c.cacheList.length ≤ c.capacity + 1) :
    c.evictIfOver.cacheList = c.cacheList.take c.capacity := by
  unfold LRUCache.evictIfOver
  by_cases hover : c.cacheList.length > c.capacity
  · rw [if_pos hover]
    cases hlast : c.cacheList.getLast? with
    | none =>
      rw [List.getLast?_eq_none_iff] at hlast
      rw [hlast] at hover
      simp at hover
    | some last =>
      simp only
      rw [List.dropLast_eq_take]
      congr 1
      omega
  · rw [if_neg hover]
    exact (List.take_of_length_le (by omega)).symm

theorem evictIfOver_fields (c : LRUCache) :
    c.evictIfOver.capacity = c.capacity ∧ c.evictIfOver.nextNode = c.nextNode ∧
    c.evictIfOver.hits = c.hits ∧ c.evictIfOver.misses = c.misses := by
  unfold LRUCache.evictIfOver
  split
  · split <;> simp
  · simp

theorem evictIfOver_evictions (c : LRUCache) :
    c.evictIfOver.evictions =
      if c.cacheList.length > c.capacity then (c.evictions + 1) % 2 ^ 64 else c.evictions := by
  unfold LRUCache.evictIfOver
  by_cases hover : c.cacheList.length > c.capacity
  · rw [if_pos hover, if_pos hover]
    cases hlast : c.cacheList.getLast? with
    | none =>
      rw [List.getLast?_eq_none_iff] at hlast
      rw [hlast] at hover
      simp at hover
    | some last => rfl
  · rw [if_neg hover, if_neg hover]

theorem evictIfOver_core (c : LRUCache) (h : c.Core) : c.evictIfOver.Core := by
  unfold LRUCache.evictIfOver
  by_cases hover : c.cacheList.length > c.capacity
  · rw [if_pos hover]
    cases hlast : c.cacheList.getLast? with
    | none => exact h
    | some last =>
      have hsplit : c.cacheList.dropLast ++ [last] = c.cacheList :=
        List.dropLast_append_getLast? last hlast
      have hmem : last ∈ c.cacheList := List.mem_of_mem_getLast? hlast
      have hsub : c.cacheList.dropLast.Sublist c.cacheList := List.dropLast_sublist _
      have hnot : last ∉ c.cacheList.dropLast := by
        intro hin
        have hnd : (c.cacheList.dropLast ++ [last]).Nodup := by
          rw [hsplit]; exact (List.Nodup.of_map _ h.ids_nodup)
        exact (List.disjoint_of_nodup_append hnd) hin (List.mem_singleton_self _)
      refine ⟨h.keys_nodup.sublist (hsub.map _), h.ids_nodup.sublist (hsub.map _), ?_,
        mapErase_keys_nodup _ _ h.map_nodup, ?_, ?_⟩
      · intro n hn
        exact h.ids_lt n (hsub.subset hn)
      · intro k it
        show mapFind (mapErase c.cacheMap last.key) k = some it ↔
          ∃ n ∈ c.cacheList.dropLast, n.id = it ∧ n.key = k
        rw [mapFind_mapErase]
        by_cases hk : k = last.key
        · rw [if_pos hk]
          constructor
          · intro hf; exact Option.noConfusion hf
          · rintro ⟨n, hn, -, hnk⟩
            have : n = last := h.key_inj (hsub.subset hn) hmem (hnk.trans hk)
            exact absurd (this ▸ hn) hnot
        · rw [if_neg hk, h.index]
          constructor
          · rintro ⟨n, hn, hid, hnk⟩
            refine ⟨n, ?_, hid, hnk⟩
            rw [← hsplit] at hn
            rcases List.mem_append.mp hn with hn | hn
            · exact hn
            · rw [List.mem_singleton] at hn
              exact absurd (hnk.symm.trans (congrArg ListNode.key hn)) hk
          · rintro ⟨n, hn, hid, hnk⟩
            exact ⟨n, hsub.subset hn, hid, hnk⟩
      · intro n hn
        exact h.wf n (hsub.subset hn)
  · rw [if_neg hover]
    exact h

/-- The recency list after `put`: the new node in front of the old list
without the node of the same key, cut to the capacity. -/
theorem put_list (c : LRUCache) (h : c.Inv) (packet : ChatPacket) (ttl : Nat) (now : Int) :
    (c.put packet ttl now).cacheList =
      (({ id := c.nextNode, entry := { message := packet, timestamp := now, ttl := ttl } } :
          ListNode) ::
        c.cacheList.filter
          (fun m => decide (m.key ≠ makeKey packet.groupID packet.timestamp))).take
        c.capacity := by
  unfold LRUCache.put
  have hf := eraseExisting_fields c (makeKey packet.groupID packet.timestamp)
  have hl := eraseExisting_list c h.core (makeKey packet.groupID packet.timestamp)
  rw [evictIfOver_list]
  · simp only [LRUCache.pushFront, hl, hf.1, hf.2.1]
  · simp only [LRUCache.pushFront, hl, hf.1, List.length_cons]
    have := List.length_filter_le
      (fun m : ListNode => decide (m.key ≠ makeKey packet.groupID packet.timestamp)) c.cacheList
    have := h.size_le
    omega

theorem put_core (c : LRUCache) (h : c.Core) (packet : ChatPacket) (hwf : packet.WellFormed)
    (ttl : Nat) (now : Int) : (c.put packet ttl now).Core := by
  unfold LRUCache.put
  exact evictIfOver_core _
    (pushFront_core _ (eraseExisting_core c h _) _ _ (eraseExisting_no_key c h _) rfl hwf)

theorem put_capacity (c : LRUCache) (packet : ChatPacket) (ttl : Nat) (now : Int) :
    (c.put packet ttl now).capacity = c.capacity := by
  unfold LRUCache.put
  rw [(evictIfOver_fields _).1]
  exact (eraseExisting_fields c _).1

theorem put_inv (c : LRUCache) (h : c.Inv) (packet : ChatPacket) (hwf : packet.WellFormed)
    (ttl : Nat) (now : Int) : (c.put packet ttl now).Inv := by
  refine ⟨put_core c h.core packet hwf ttl now, ?_⟩
  rw [put_list c h, put_capacity, List.length_take]
  exact Nat.min_le_left _ _

/-! ## The invariant under `get` and `clearExpired` -/

theorem LRUCache.Core.congr {c c' : LRUCache} (h : c.Core) (hl : c'.cacheList = c.cacheList)
    (hm : c'.cacheMap = c.cacheMap) (hn : c'.nextNode = c.nextNode) : c'.Core := by
  refine ⟨?_, ?_, ?_, ?_, ?_, ?_⟩
  · rw [hl]; exact h.keys_nodup
  · rw [hl]; exact h.ids_nodup
  · rw [hl, hn]; exact h.ids_lt
  · rw [hm]; exact h.map_nodup
  · rw [hl, hm]; exact h.index
  · rw [hl]; exact h.wf

/-- The three outcomes of `get`, read off the recency list. -/
theorem get_absent (tps : Nat) (c : LRUCache) (h : c.Core) (groupID timestamp : Nat) (now : Int)
    (hk : ∀ n ∈ c.cacheList, n.key ≠ makeKey groupID timestamp) :
    c.get tps groupID timestamp now = (none, { c with misses := (c.misses + 1) % 2 ^ 64 }) := by
  unfold LRUCache.get
  simp only [h.find_none _ hk]

theorem get_expired (tps : Nat) (c : LRUCache) (h : c.Core) (groupID timestamp : Nat)
    (now : Int) (n : ListNode) (hn : n ∈ c.cacheList) (hk : n.key = makeKey groupID timestamp)
    (hexp : n.entry.isExpired tps now = true) :
    c.get tps groupID timestamp now =
      (none, { c with
        cacheList := listErase c.cacheList n.id
        cacheMap := mapErase c.cacheMap (makeKey groupID timestamp)
        misses := (c.misses + 1) % 2 ^ 64 }) := by
  unfold LRUCache.get
  have hf := h.find_of_mem hn
  rw [hk] at hf
  simp only [hf, nodeAt_of_mem _ n hn h.ids_nodup, hexp, if_true]

theorem get_hit (tps : Nat) (c : LRUCache) (h : c.Core) (groupID timestamp : Nat)
    (now : Int) (n : ListNode) (hn : n ∈ c.cacheList) (hk : n.key = makeKey groupID timestamp)
    (hexp : n.entry.isExpired tps now = false) :
    c.get tps groupID timestamp now =
      (some n.entry.message, { c with
        cacheList := n :: listErase c.cacheList n.id
        hits := (c.hits + 1) % 2 ^ 64 }) := by
  unfold LRUCache.get
  have hf := h.find_of_mem hn
  rw [hk] at hf
  simp only [hf, nodeAt_of_mem _ n hn h.ids_nodup, hexp, Bool.false_eq_true, if_false]

theorem listErase_sublist (l : List ListNode) (it : Nat) : (listErase l it).Sublist l :=
  List.filter_sublist l

theorem mem_listErase {l : List ListNode} {it : Nat} {m : ListNode} :
    m ∈ listErase l it ↔ m ∈ l ∧ m.id ≠ it := by
  unfold listErase
  rw [List.mem_filter]
  simp

theorem moveToFront_core (c : LRUCache) (h : c.Core) (n : ListNode) (hn : n ∈ c.cacheList)
    (hits : Nat) :
    ({ c with cacheList := n :: listErase c.cacheList n.id, hits := hits } : LRUCache).Core := by
  have hsub := listErase_sublist c.cacheList n.id
  refine ⟨?_, ?_, ?_, h.map_nodup, ?_, ?_⟩
  · show ((n :: listErase c.cacheList n.id).map ListNode.key).Nodup
    rw [List.map_cons, List.nodup_cons]
    refine ⟨?_, h.keys_nodup.sublist (hsub.map _)⟩
    intro hmem
    obtain ⟨m, hm, hmk⟩ := List.mem_map.mp hmem
    have hm' := mem_listErase.mp hm
    exact hm'.2 (congrArg ListNode.id (h.key_inj hm'.1 hn hmk))
  · show ((n :: listErase c.cacheList n.id).map ListNode.id).Nodup
    rw [List.map_cons, List.nodup_cons]
    refine ⟨?_, h.ids_nodup.sublist (hsub.map _)⟩
    intro hmem
    obtain ⟨m, hm, hmk⟩ := List.mem_map.mp hmem
    exact (mem_listErase.mp hm).2 hmk
  · intro m hm
    rcases List.mem_cons.mp hm with rfl | hm
    · exact h.ids_lt _ hn
    · exact h.ids_lt m (hsub.subset hm)
  · intro k it
    show mapFind c.cacheMap k = some it ↔
      ∃ m ∈ n :: listErase c.cacheList n.id, m.id = it ∧ m.key = k
    rw [h.index]
    constructor
    · rintro ⟨m, hm, hid, hmk⟩
      by_cases hmn : m.id = n.id
      · have : m = n := h.id_inj hm hn hmn
        exact ⟨m, by rw [this]; exact List.mem_cons_self _ _, hid, hmk⟩
      · exact ⟨m, List.mem_cons_of_mem _ (mem_listErase.mpr ⟨hm, hmn⟩), hid, hmk⟩
    · rintro ⟨m, hm, hid, hmk⟩
      rcases List.mem_cons.mp hm with rfl | hm
      · exact ⟨m, hn, hid, hmk⟩
      · exact ⟨m, hsub.subset hm, hid, hmk⟩
  · intro m hm
    rcases List.mem_cons.mp hm with rfl | hm
    · exact h.wf _ hn
    · exact h.wf m (hsub.subset hm)

theorem moveToFront_length (l : List ListNode) (n : ListNode) (hn : n ∈ l)
    (hnd : (l.map ListNode.id).Nodup) : (n :: listErase l n.id).length = l.length := by
  induction l with
  | nil => simp at hn
  | cons m rest ih =>
    rw [List.map_cons, List.nodup_cons] at hnd
    unfold listErase at ih ⊢
    by_cases hm : m.id = n.id
    · have hrest : rest.filter (fun x => decide (x.id ≠ n.id)) = rest := by
        rw [List.filter_eq_self]
        intro x hx
        have : x.id ≠ n.id := by
          intro hxn
          exact hnd.1 (hm ▸ hxn ▸ List.mem_map_of_mem ListNode.id hx)
        simp [this]
      rw [List.filter_cons_of_neg (by simp [hm]), hrest]
      simp only [List.length_cons]
    · rcases List.mem_cons.mp hn with h | h
      · exact absurd (h ▸ rfl) hm
      · have := ih h hnd.2
        rw [List.filter_cons_of_pos (by simp [hm])]
        simp only [List.length_cons] at this ⊢
        omega

theorem get_core (tps : Nat) (c : LRUCache) (h : c.Core) (groupID timestamp : Nat) (now : Int) :
    (c.get tps groupID timestamp now).2.Core := by
  by_cases hex : ∃ n ∈ c.cacheList, n.key = makeKey groupID timestamp
  · obtain ⟨n, hn, hk⟩ := hex
    cases hexp : n.entry.isExpired tps now with
    | true =>
      rw [get_expired tps c h groupID timestamp now n hn hk hexp]
      have he := eraseExisting_core c h (makeKey groupID timestamp)
      have hf := h.find_of_mem hn
      rw [hk] at hf
      refine he.congr ?_ ?_ ?_ <;> simp [LRUCache.eraseExisting, hf]
    | false =>
      rw [get_hit tps c h groupID timestamp now n hn hk hexp]
      exact moveToFront_core c h n hn _
  · have hk : ∀ n ∈ c.cacheList, n.key ≠ makeKey groupID timestamp := by
      intro n hn hkey; exact hex ⟨n, hn, hkey⟩
    rw [get_absent tps c h groupID timestamp now hk]
    exact h.congr rfl rfl rfl

theorem get_capacity (tps : Nat) (c : LRUCache) (groupID timestamp : Nat) (now : Int) :
    (c.get tps groupID timestamp now).2.capacity = c.capacity := by
  unfold LRUCache.get
  simp only
  split
  · rfl
  · split
    · rfl
    · split <;> rfl

theorem get_length_le (tps : Nat) (c : LRUCache) (h : c.Core) (groupID timestamp : Nat)
    (now : Int) : (c.get tps groupID timestamp now).2.cacheList.length ≤ c.cacheList.length := by
  by_cases hex : ∃ n ∈ c.cacheList, n.key = makeKey groupID timestamp
  · obtain ⟨n, hn, hk⟩ := hex
    cases hexp : n.entry.isExpired tps now with
    | true =>
      rw [get_expired tps c h groupID timestamp now n hn hk hexp]
      exact (listErase_sublist _ _).length_le
    | false =>
      rw [get_hit tps c h groupID timestamp now n hn hk hexp]
      exact le_of_eq (moveToFront_length _ n hn h.ids_nodup)
  · have hk : ∀ n ∈ c.cacheList, n.key ≠ makeKey groupID timestamp := by
      intro n hn hkey; exact hex ⟨n, hn, hkey⟩
    rw [get_absent tps c h groupID timestamp now hk]

theorem get_inv (tps : Nat) (c : LRUCache) (h : c.Inv) (groupID timestamp : Nat) (now : Int) :
    (c.get tps groupID timestamp now).2.Inv :=
  ⟨get_core tps c h.core groupID timestamp now, by
    rw [get_capacity]
    exact le_trans (get_length_le tps c h.core groupID timestamp now) h.size_le⟩

theorem clearLoop_list (tps : Nat) (now : Int) (l : List ListNode) (m : List (Nat × Nat)) :
    (clearLoop tps now l m).1 = l.filter (fun n => !n.entry.isExpired tps now) := by
  induction l generalizing m with
  | nil => rfl
  | cons n rest ih =>
    unfold clearLoop
    cases hexp : n.entry.isExpired tps now with
    | true => simp [hexp, ih]
    | false => simp [hexp, ih]

theorem clearLoop_find (tps : Nat) (now : Int) (l : List ListNode) (m : List (Nat × Nat))
    (k : Nat) :
    mapFind (clearLoop tps now l m).2 k =
      if ∃ n ∈ l, n.entry.isExpired tps now = true ∧ n.key = k then none else mapFind m k := by
  induction l generalizing m with
  | nil => simp [clearLoop]
  | cons n rest ih =>
    unfold clearLoop
    cases hexp : n.entry.isExpired tps now with
    | true =>
      simp only [if_true, ih, mapFind_mapErase]
      by_cases hk : k = n.key
      · have h1 : ∃ x ∈ n :: rest, x.entry.isExpired tps now = true ∧ x.key = k :=
          ⟨n, List.mem_cons_self _ _, hexp, hk.symm⟩
        rw [if_pos h1, if_pos hk]
        simp
      · rw [if_neg hk]
        by_cases hr : ∃ x ∈ rest, x.entry.isExpired tps now = true ∧ x.key = k
        · have h1 : ∃ x ∈ n :: rest, x.entry.isExpired tps now = true ∧ x.key = k := by
            obtain ⟨x, hx, hx'⟩ := hr
            exact ⟨x, List.mem_cons_of_mem _ hx, hx'⟩
          rw [if_pos hr, if_pos h1]
        · have h1 : ¬ ∃ x ∈ n :: rest, x.entry.isExpired tps now = true ∧ x.key = k := by
            rintro ⟨x, hx, hx1, hx2⟩
            rcases List.mem_cons.mp hx with rfl | hx
            · exact hk hx2.symm
            · exact hr ⟨x, hx, hx1, hx2⟩
          rw [if_neg hr, if_neg h1]
    | false =>
      simp only [Bool.false_eq_true, if_false, ih]
      by_cases hr : ∃ x ∈ rest, x.entry.isExpired tps now = true ∧ x.key = k
      · have h1 : ∃ x ∈ n :: rest, x.entry.isExpired tps now = true ∧ x.key = k := by
          obtain ⟨x, hx, hx'⟩ := hr
          exact ⟨x, List.mem_cons_of_mem _ hx, hx'⟩
        rw [if_pos hr, if_pos h1]
      · have h1 : ¬ ∃ x ∈ n :: rest, x.entry.isExpired tps now = true ∧ x.key = k := by
          rintro ⟨x, hx, hx1, hx2⟩
          rcases List.mem_cons.mp hx with rfl | hx
          · rw [hexp] at hx1; exact Bool.noConfusion hx1
          · exact hr ⟨x, hx, hx1, hx2⟩
        rw [if_neg hr, if_neg h1]

theorem clearLoop_map_nodup (tps : Nat) (now : Int) (l : List ListNode) (m : List (Nat × Nat))
    (h : (m.map Prod.fst).Nodup) : ((clearLoop tps now l m).2.map Prod.fst).Nodup := by
  induction l generalizing m with
  | nil => exact h
  | cons n rest ih =>
    unfold clearLoop
    cases hexp : n.entry.isExpired tps now with
    | true => simpa using ih _ (mapErase_keys_nodup m n.key h)
    | false => simpa using ih _ h

theorem clearExpired_core (tps : Nat) (c : LRUCache) (h : c.Core) (now : Int) :
    (c.clearExpired tps now).Core := by
  have hsub : (c.cacheList.filter (fun n => !n.entry.isExpired tps now)).Sublist c.cacheList :=
    List.filter_sublist _
  unfold LRUCache.clearExpired
  refine ⟨?_, ?_, ?_, clearLoop_map_nodup tps now _ _ h.map_nodup, ?_, ?_⟩
  · simp only [clearLoop_list]
    exact h.keys_nodup.sublist (hsub.map _)
  · simp only [clearLoop_list]
    exact h.ids_nodup.sublist (hsub.map _)
  · simp only [clearLoop_list]
    intro n hn
    exact h.ids_lt n (hsub.subset hn)
  · intro k it
    simp only [clearLoop_list, clearLoop_find]
    by_cases hr : ∃ x ∈ c.cacheList, x.entry.isExpired tps now = true ∧ x.key = k
    · rw [if_pos hr]
      obtain ⟨x, hx, hx1, hx2⟩ := hr
      constructor
      · intro hf; exact Option.noConfusion hf
      · rintro ⟨n, hn, -, hnk⟩
        have hn' := List.mem_filter.mp hn
        have : n = x := h.key_inj hn'.1 hx (hnk.trans hx2.symm)
        rw [this, hx1] at hn'
        simp at hn'
    · rw [if_neg hr, h.index]
      constructor
      · rintro ⟨n, hn, hid, hnk⟩
        refine ⟨n, List.mem_filter.mpr ⟨hn, ?_⟩, hid, hnk⟩
        cases hexp : n.entry.isExpired tps now with
        | true => exact absurd ⟨n, hn, hexp, hnk⟩ hr
        | false => rfl
      · rintro ⟨n, hn, hid, hnk⟩
        exact ⟨n, hsub.subset hn, hid, hnk⟩
  · simp only [clearLoop_list]
    intro n hn
    exact h.wf n (hsub.subset hn)

theorem clearExpired_inv (tps : Nat) (c : LRUCache) (h : c.Inv) (now : Int) :
    (c.clearExpired tps now).Inv := by
  refine ⟨clearExpired_core tps c h.core now, ?_⟩
  have : (c.clearExpired tps now).cacheList.length ≤ c.cacheList.length := by
    unfold LRUCache.clearExpired
    simp only [clearLoop_list]
    exact List.length_filter_le _ _
  exact le_trans this h.size_le

theorem new_inv (cap : Nat) : (LRUCache.new cap).Inv := by
  refine ⟨⟨?_, ?_, ?_, ?_, ?_, ?_⟩, ?_⟩ <;> simp [LRUCache.new, mapFind]

/-- Every reachable cache state satisfies the invariant and has the capacity
given at construction. -/
theorem reachable_inv (tps cap : Nat) (c : LRUCache) (h : LRUCache.Reachable tps cap c) :
    c.Inv ∧ c.capacity = cap := by
  induction h with
  | new => exact ⟨new_inv cap, rfl⟩
  | put c packet ttl now _ hwf ih =>
    exact ⟨put_inv c ih.1 packet hwf ttl now, by rw [put_capacity]; exact ih.2⟩
  | get c groupID timestamp now _ ih =>
    exact ⟨get_inv tps c ih.1 groupID timestamp now, by rw [get_capacity]; exact ih.2⟩
  | getGroupHistory c groupID limit now history _ _ ih => exact ih
  | clearExpired c now _ ih => exact ⟨clearExpired_inv tps c ih.1 now, ih.2⟩

/-! ## Cache bound and eviction (C2, C3) -/

theorem makeKey_eq (g t : Nat) (hg : g < 2 ^ 16) (ht : t < 2 ^ 32) :
    makeKey g t = 2 ^ 32 * g + t := by
  unfold makeKey
  rw [Nat.shiftLeft_eq, Nat.mul_comm g, Nat.mod_eq_of_lt (by omega),
    ← Nat.mul_add_lt_is_or ht]

/-- The cache key determines the pair it was made from. -/
theorem makeKey_inj (g t g' t' : Nat) (hg : g < 2 ^ 16) (ht : t < 2 ^ 32) (hg' : g' < 2 ^ 16)
    (ht' : t' < 2 ^ 32) (h : makeKey g t = makeKey g' t') : g = g' ∧ t = t' := by
  rw [makeKey_eq g t hg ht, makeKey_eq g' t' hg' ht'] at h
  omega

theorem key_eq_iff (p q : ChatPacket) (hp : p.WellFormed) (hq : q.WellFormed) :
    makeKey p.groupID p.timestamp = makeKey q.groupID q.timestamp ↔
      p.groupID = q.groupID ∧ p.timestamp = q.timestamp := by
  constructor
  · exact makeKey_inj _ _ _ _ hp.2.1 hp.2.2.1 hq.2.1 hq.2.2.1
  · rintro ⟨h1, h2⟩; rw [h1, h2]

theorem not_holds_key (c : LRUCache) (h : c.Core) (p : ChatPacket) (hwf : p.WellFormed)
    (hfresh : ¬ c.holds p.groupID p.timestamp) :
    ∀ n ∈ c.cacheList, n.key ≠ makeKey p.groupID p.timestamp := by
  intro n hn hk
  exact hfresh ⟨n, hn, (key_eq_iff _ _ (h.wf n hn) hwf).mp hk⟩

theorem filter_fresh (l : List ListNode) (key : Nat) (h : ∀ n ∈ l, n.key ≠ key) :
    l.filter (fun m => decide (m.key ≠ key)) = l := by
  rw [List.filter_eq_self]
  intro n hn
  simp [h n hn]

theorem put_evictions (c : LRUCache) (h : c.Inv) (packet : ChatPacket) (ttl : Nat) (now : Int) :
    (c.put packet ttl now).evictions =
      if (c.cacheList.filter
          (fun m => decide (m.key ≠ makeKey packet.groupID packet.timestamp))).length + 1 >
            c.capacity
      then (c.evictions + 1) % 2 ^ 64 else c.evictions := by
  unfold LRUCache.put
  have hf := eraseExisting_fields c (makeKey packet.groupID packet.timestamp)
  have hl := eraseExisting_list c h.core (makeKey packet.groupID packet.timestamp)
  rw [evictIfOver_evictions]
  simp only [LRUCache.pushFront, hl, hf.1, hf.2.2.2.2, List.length_cons]

theorem reachable_sampleCache (tps : Nat) : LRUCache.Reachable tps 1 sampleCache :=
  LRUCache.Reachable.put _ _ _ _ LRUCache.Reachable.new samplePacket_wellFormed

theorem samplePacket2_wellFormed : samplePacket2.WellFormed := by
  refine ⟨by decide, by decide, by decide, by decide, by decide, ?_, ?_⟩
  · simp only [samplePacket2, samplePacket, List.length_cons, List.length_replicate]
  · intro b hb
    simp only [samplePacket2, samplePacket, List.mem_cons, List.mem_replicate] at hb
    omega

/-- The key index has exactly the keys of the nodes of the list, hence as many
bindings as the list has nodes. -/
theorem LRUCache.Core.index_keys {c : LRUCache} (h : c.Core) :
    (c.cacheMap.map Prod.fst).Perm (c.cacheList.map ListNode.key) := by
  rw [List.perm_ext_iff_of_nodup h.map_nodup h.keys_nodup]
  intro k
  constructor
  · intro hk
    cases hf : mapFind c.cacheMap k with
    | none => exact absurd hk ((mapFind_none_iff _ _).mp hf)
    | some it =>
      obtain ⟨n, hn, -, hnk⟩ := (h.index k it).mp hf
      exact hnk ▸ List.mem_map_of_mem ListNode.key hn
  · intro hk
    obtain ⟨n, hn, hnk⟩ := List.mem_map.mp hk
    by_contra hnot
    have hnone := (mapFind_none_iff _ _).mpr hnot
    rw [← hnk, h.find_of_mem hn] at hnone
    exact Option.noConfusion hnone

theorem LRUCache.Core.index_length {c : LRUCache} (h : c.Core) :
    c.cacheMap.length = c.cacheList.length := by
  have := h.index_keys.length_eq
  rwa [List.length_map, List.length_map] at this

/-- C2. Cache bound: in every state reachable from a cache newly constructed
with capacity `cap` by calls of `put`, `get`, `getGroupHistory` and
`clearExpired`, the recency list holds at most `cap` entries, the key index has
as many bindings as the list has entries, and the capacity field still is
`cap`. -/
theorem cache_bound (tps cap : Nat) (c : LRUCache) (h : LRUCache.Reachable tps cap c) :
    c.cacheList.length ≤ cap ∧ c.cacheMap.length = c.cacheList.length ∧ c.capacity = cap := by
  have hi := reachable_inv tps cap c h
  exact ⟨hi.2 ▸ hi.1.size_le, hi.1.core.index_length, hi.2⟩

/-- C2, witness: a cache of capacity 1 after two insertions. -/
theorem cache_bound_witness :
    LRUCache.Reachable 1000 1 (sampleCache.put samplePacket2 3600 5000) ∧
    (sampleCache.put samplePacket2 3600 5000).cacheList.length ≤ 1 :=
  ⟨LRUCache.Reachable.put _ _ _ _ (reachable_sampleCache 1000) samplePacket2_wellFormed,
    (cache_bound 1000 1 _
      (LRUCache.Reachable.put _ _ _ _ (reachable_sampleCache 1000) samplePacket2_wellFormed)).1⟩

/-- C3. Eviction on over-capacity insertion: in a reachable cache that holds
exactly `cap >= 1` entries, a `put` of a packet whose (groupID, timestamp) pair
is not held leaves the new node in front of the old list without its last
node, and the eviction counter is incremented once (as a 64-bit counter, hence
by exactly 1 while it has not reached its maximum); and a `put` into a
reachable cache that already holds the pair, or holds fewer than `cap`
entries, leaves the eviction counter unchanged. -/
theorem put_evicts_back (tps cap : Nat) (c : LRUCache) (h : LRUCache.Reachable tps cap c)
    (packet : ChatPacket) (hwf : packet.WellFormed) (ttl : Nat) (now : Int) :
    (¬ c.holds packet.groupID packet.timestamp → c.cacheList.length = cap → 1 ≤ cap →
      (c.put packet ttl now).cacheList =
          { id := c.nextNode, entry := { message := packet, timestamp := now, ttl := ttl } } ::
            c.cacheList.dropLast ∧
        (c.put packet ttl now).evictions = (c.evictions + 1) % 2 ^ 64 ∧
        (c.evictions + 1 < 2 ^ 64 → (c.put packet ttl now).evictions = c.evictions + 1)) ∧
    (c.holds packet.groupID packet.timestamp ∨ c.cacheList.length < cap →
      (c.put packet ttl now).evictions = c.evictions) := by
  obtain ⟨hinv, hcap⟩ := reachable_inv tps cap c h
  constructor
  · intro hfresh hfull hpos
    have hk := not_holds_key c hinv.core packet hwf hfresh
    have hev : (c.put packet ttl now).evictions = (c.evictions + 1) % 2 ^ 64 := by
      rw [put_evictions c hinv, filter_fresh _ _ hk, if_pos (by omega)]
    refine ⟨?_, hev, fun hlt => by rw [hev, Nat.mod_eq_of_lt hlt]⟩
    rw [put_list c hinv, filter_fresh _ _ hk, List.dropLast_eq_take, hcap]
    obtain ⟨k, rfl⟩ : ∃ k, cap = k + 1 := ⟨cap - 1, by omega⟩
    rw [List.take_succ_cons, hfull]
    rfl
  · intro hor
    rw [put_evictions c hinv, if_neg]
    rcases hor with ⟨n, hn, hg, ht⟩ | hlt
    · have hnk : n.key = makeKey packet.groupID packet.timestamp := by
        unfold ListNode.key; rw [hg, ht]
      have hlen : (c.cacheList.filter
          (fun m => decide (m.key ≠ makeKey packet.groupID packet.timestamp))).length <
            c.cacheList.length := by
        apply List.length_filter_lt_length_iff_exists.mpr
        exact ⟨n, hn, by simp [hnk]⟩
      have := hinv.size_le
      omega
    · have := List.length_filter_le
        (fun m : ListNode => decide (m.key ≠ makeKey packet.groupID packet.timestamp))
        c.cacheList
      omega

/-- C3, witness: an insertion into a full cache of capacity 1 evicts the only entry and counts one eviction; an insertion of the held pair counts none. -/
theorem put_evicts_back_witness :
    (sampleCache.put samplePacket2 3600 5000).cacheList =
      [{ id := 1, entry := { message := samplePacket2, timestamp := 5000, ttl := 3600 } }] ∧
    (sampleCache.put samplePacket2 3600 5000).evictions = 1 ∧
    (sampleCache.put samplePacket 3600 5000).evictions = 0 :=
  have h := put_evicts_back 1000 1 sampleCache (reachable_sampleCache 1000) samplePacket2
    samplePacket2_wellFormed 3600 5000
  have h' := put_evicts_back 1000 1 sampleCache (reachable_sampleCache 1000) samplePacket
    samplePacket_wellFormed 3600 5000
  have h1 := h.1 (by decide) (by decide) (by decide)
  ⟨h1.1, h1.2.2 (by decide), h'.2 (Or.inl (by decide))⟩

/-! ## Recency after `get` (C4) -/

theorem take_append_take {α : Type} (A B : List α) (n : Nat) :
    (A ++ B.take n).take n = (A ++ B).take n := by
  rw [List.take_append_eq_append_take, List.take_append_eq_append_take, List.take_take]
  congr 2
  omega

theorem put_keys_fresh (c : LRUCache) (h : c.Inv) (packet : ChatPacket) (ttl : Nat) (now : Int)
    (hfresh : ¬ c.hasKey packet.key) :
    (c.put packet ttl now).cacheList.map ListNode.key =
      (packet.key :: c.cacheList.map ListNode.key).take c.capacity := by
  have hk : ∀ n ∈ c.cacheList, n.key ≠ makeKey packet.groupID packet.timestamp :=
    fun n hn hkey => hfresh ⟨n, hn, hkey⟩
  rw [put_list c h, filter_fresh _ _ hk, List.map_take]
  rfl

/-- The keys in the recency list after a run of `put` calls with fresh,
pairwise different keys: the new keys, newest first, then the old ones, cut to
the capacity. -/
theorem putAll_keys (puts : List (ChatPacket × Nat × Int)) :
    ∀ (c : LRUCache), c.Inv → (∀ q ∈ puts, q.1.WellFormed) →
      (puts.map (fun q => q.1.key)).Nodup → (∀ q ∈ puts, ¬ c.hasKey q.1.key) →
      (c.putAll puts).cacheList.map ListNode.key =
          ((puts.map (fun q => q.1.key)).reverse ++ c.cacheList.map ListNode.key).take
            c.capacity ∧
        (c.putAll puts).capacity = c.capacity := by
  induction puts with
  | nil =>
    intro c h _ _ _
    simp only [LRUCache.putAll, List.foldl_nil, List.map_nil, List.reverse_nil, List.nil_append,
      and_true]
    rw [List.take_of_length_le]
    rw [List.length_map]
    exact h.size_le
  | cons q rest ih =>
    intro c h hwf hnd hfresh
    rw [List.map_cons, List.nodup_cons] at hnd
    have hq : ¬ c.hasKey q.1.key := hfresh q (List.mem_cons_self _ _)
    have hkeys := put_keys_fresh c h q.1 q.2.1 q.2.2 hq
    have hfresh' : ∀ r ∈ rest, ¬ (c.put q.1 q.2.1 q.2.2).hasKey r.1.key := by
      rintro r hr ⟨n, hn, hnk⟩
      have hmem : r.1.key ∈ (c.put q.1 q.2.1 q.2.2).cacheList.map ListNode.key :=
        hnk ▸ List.mem_map_of_mem ListNode.key hn
      rw [hkeys] at hmem
      rcases List.mem_cons.mp (List.mem_of_mem_take hmem) with heq | hold
      · exact hnd.1 (heq ▸ List.mem_map_of_mem (fun q => q.1.key) hr)
      · obtain ⟨m, hm, hmk⟩ := List.mem_map.mp hold
        exact hfresh r (List.mem_cons_of_mem _ hr) ⟨m, hm, hmk⟩
    have hrec := ih (c.put q.1 q.2.1 q.2.2)
      (put_inv c h q.1 (hwf q (List.mem_cons_self _ _)) q.2.1 q.2.2)
      (fun r hr => hwf r (List.mem_cons_of_mem _ hr)) hnd.2 hfresh'
    have hstep : c.putAll (q :: rest) = (c.put q.1 q.2.1 q.2.2).putAll rest := rfl
    rw [hstep, hrec.1, hrec.2, put_capacity, hkeys, take_append_take]
    simp only [List.map_cons, List.reverse_cons, List.append_assoc, List.singleton_append,
      and_self]

theorem mem_take_after {α : Type} (A B : List α) (k x : α) (n : Nat)
    (hx : x ∈ (A ++ k :: B).take n) (hA : x ∉ A) : k ∈ (A ++ k :: B).take n := by
  rw [List.take_append_eq_append_take] at hx ⊢
  rcases List.mem_append.mp hx with h | h
  · exact absurd (List.mem_of_mem_take h) hA
  · apply List.mem_append_right
    cases hn : n - A.length with
    | zero => rw [hn] at h; simp at h
    | succ j => rw [List.take_succ_cons]; exact List.mem_cons_self _ _

theorem not_mem_take_last {α : Type} (A B : List α) (k q x : α) (n : Nat)
    (hk : k ∈ (A ++ k :: B).take n) (hk' : k ∉ (q :: (A ++ k :: B)).take n)
    (hkA : k ∉ A) (hxA : x ∉ A) (hxk : x ≠ k) :
    x ∉ (A ++ k :: B).take n := by
  have h1 : A.length < n := by
    by_contra hle
    rw [List.take_append_eq_append_take, Nat.sub_eq_zero_of_le (by omega)] at hk
    simp only [List.take_zero, List.append_nil] at hk
    exact hkA (List.mem_of_mem_take hk)
  have h2 : n ≤ A.length + 1 := by
    by_contra hgt
    apply hk'
    obtain ⟨j, rfl⟩ : ∃ j, n = j + 1 := ⟨n - 1, by omega⟩
    rw [List.take_succ_cons]
    apply List.mem_cons_of_mem
    rw [List.take_append_eq_append_take]
    apply List.mem_append_right
    obtain ⟨i, hi⟩ : ∃ i, j - A.length = i + 1 := ⟨j - A.length - 1, by omega⟩
    rw [hi, List.take_succ_cons]
    exact List.mem_cons_self _ _
  have hn : n = A.length + 1 := by omega
  rw [hn, List.take_append_eq_append_take, List.take_of_length_le (by omega)]
  simp only [Nat.add_sub_cancel_left, List.take_succ_cons, List.take_zero, List.mem_append,
    List.mem_singleton, not_or]
  exact ⟨hxA, hxk⟩

/-- A `get` that returns a packet found a live node with the requested key and
moved it to the front. -/
theorem get_some_elim (tps : Nat) (c : LRUCache) (h : c.Core) (groupID timestamp : Nat)
    (now : Int) (p : ChatPacket) (hget : (c.get tps groupID timestamp now).1 = some p) :
    ∃ n ∈ c.cacheList, n.key = makeKey groupID timestamp ∧ n.entry.isExpired tps now = false ∧
      n.entry.message = p ∧
      (c.get tps groupID timestamp now).2 =
        { c with cacheList := n :: listErase c.cacheList n.id, hits := (c.hits + 1) % 2 ^ 64 } := by
  by_cases hex : ∃ n ∈ c.cacheList, n.key = makeKey groupID timestamp
  · obtain ⟨n, hn, hk⟩ := hex
    cases hexp : n.entry.isExpired tps now with
    | true =>
      rw [get_expired tps c h groupID timestamp now n hn hk hexp] at hget
      exact Option.noConfusion hget
    | false =>
      rw [get_hit tps c h groupID timestamp now n hn hk hexp] at hget ⊢
      simp only [Option.some.injEq] at hget
      exact ⟨n, hn, hk, hexp, hget, rfl⟩
  · have hk : ∀ n ∈ c.cacheList, n.key ≠ makeKey groupID timestamp := by
      intro n hn hkey; exact hex ⟨n, hn, hkey⟩
    rw [get_absent tps c h groupID timestamp now hk] at hget
    exact Option.noConfusion hget

theorem reachable_sampleCacheTwo (tps : Nat) : LRUCache.Reachable tps 3 sampleCacheTwo :=
  LRUCache.Reachable.put _ _ _ _
    (LRUCache.Reachable.put _ _ _ _ LRUCache.Reachable.new samplePacket_wellFormed)
    samplePacket2_wellFormed

theorem samplePacket3_wellFormed : samplePacket3.WellFormed := by
  refine ⟨by decide, by decide, by decide, by decide, by decide, ?_, ?_⟩
  · simp only [samplePacket3, samplePacket, List.length_cons, List.length_replicate]
  · intro b hb
    simp only [samplePacket3, samplePacket, List.mem_cons, List.mem_replicate] at hb
    omega

/-- C4. LRU recency: when `get(groupID, timestamp)` returns a packet from a
reachable cache, the node of that key `k` is at the front of the recency list
afterwards; and for every following run of `put` calls with fresh, pairwise
different keys, every other key `k'` that was present at the time of the `get`
is evicted before `k`: whenever `k'` is still present after the run so is `k`,
and a further such `put` that evicts `k` finds `k'` already gone. -/
theorem get_refreshes_recency (tps cap : Nat) (c : LRUCache)
    (h : LRUCache.Reachable tps cap c) (groupID timestamp : Nat) (now : Int) (p : ChatPacket)
    (hget : (c.get tps groupID timestamp now).1 = some p) :
    (∃ n rest, (c.get tps groupID timestamp now).2.cacheList = n :: rest ∧
      n.key = makeKey groupID timestamp ∧ n.entry.message = p) ∧
    ∀ puts : List (ChatPacket × Nat × Int),
      (∀ q ∈ puts, q.1.WellFormed) → (puts.map (fun q => q.1.key)).Nodup →
      (∀ q ∈ puts, ¬ (c.get tps groupID timestamp now).2.hasKey q.1.key) →
      ∀ k', k' ≠ makeKey groupID timestamp → c.hasKey k' →
        (((c.get tps groupID timestamp now).2.putAll puts).hasKey k' →
          ((c.get tps groupID timestamp now).2.putAll puts).hasKey (makeKey groupID timestamp)) ∧
        ∀ q : ChatPacket × Nat × Int, q.1.WellFormed →
          q.1.key ∉ puts.map (fun r => r.1.key) →
          ¬ (c.get tps groupID timestamp now).2.hasKey q.1.key →
          ((c.get tps groupID timestamp now).2.putAll puts).hasKey (makeKey groupID timestamp) →
          ¬ ((c.get tps groupID timestamp now).2.putAll (puts ++ [q])).hasKey
              (makeKey groupID timestamp) →
          ¬ ((c.get tps groupID timestamp now).2.putAll puts).hasKey k' := by
  obtain ⟨hinv, -⟩ := reachable_inv tps cap c h
  have hinv1 : (c.get tps groupID timestamp now).2.Inv := get_inv tps c hinv groupID timestamp now
  obtain ⟨n, hn, hk, -, hmsg, hstate⟩ :=
    get_some_elim tps c hinv.core groupID timestamp now p hget
  have hlist : (c.get tps groupID timestamp now).2.cacheList = n :: listErase c.cacheList n.id := by
    rw [hstate]
  refine ⟨⟨n, _, hlist, hk, hmsg⟩, ?_⟩
  intro puts hwf hnd hfresh k' hk' hpresent
  have hkeys1 : (c.get tps groupID timestamp now).2.cacheList.map ListNode.key =
      makeKey groupID timestamp :: (listErase c.cacheList n.id).map ListNode.key := by
    rw [hlist, List.map_cons, hk]
  have hhas : ∀ (s : LRUCache) (key : Nat), s.hasKey key ↔ key ∈ s.cacheList.map ListNode.key := by
    intro s key
    unfold LRUCache.hasKey
    rw [List.mem_map]
  have hk1 : (c.get tps groupID timestamp now).2.hasKey (makeKey groupID timestamp) := by
    rw [hhas, hkeys1]; exact List.mem_cons_self _ _
  have hk'1 : (c.get tps groupID timestamp now).2.hasKey k' := by
    obtain ⟨m, hm, hmk⟩ := hpresent
    refine ⟨m, ?_, hmk⟩
    rw [hlist]
    apply List.mem_cons_of_mem
    apply mem_listErase.mpr
    refine ⟨hm, fun hid => hk' ?_⟩
    rw [← hmk, ← hk, hinv.core.id_inj hm hn hid]
  have hA : ∀ key, (c.get tps groupID timestamp now).2.hasKey key →
      key ∉ (puts.map (fun q => q.1.key)).reverse := by
    intro key hkey hmem
    obtain ⟨q, hq, hqk⟩ := List.mem_map.mp (List.mem_reverse.mp hmem)
    exact hfresh q hq (hqk ▸ hkey)
  have hrun := putAll_keys puts _ hinv1 hwf hnd hfresh
  constructor
  · intro hlater
    rw [hhas, hrun.1, hkeys1] at hlater ⊢
    exact mem_take_after _ _ _ _ _ hlater (hA k' hk'1)
  · intro q hqwf hqnew hqfresh hbefore hafter
    have hrun' := putAll_keys (puts ++ [q]) _ hinv1
      (by
        intro r hr
        rcases List.mem_append.mp hr with hr | hr
        · exact hwf r hr
        · rw [List.mem_singleton.mp hr]; exact hqwf)
      (by
        rw [List.map_append, List.nodup_append]
        refine ⟨hnd, List.nodup_singleton _, ?_⟩
        intro x hx hx'
        rw [List.map_singleton, List.mem_singleton] at hx'
        exact hqnew (hx' ▸ hx))
      (by
        intro r hr
        rcases List.mem_append.mp hr with hr | hr
        · exact hfresh r hr
        · rw [List.mem_singleton.mp hr]; exact hqfresh)
    rw [hhas, hrun.1, hkeys1] at hbefore ⊢
    rw [hhas, hrun'.1, hkeys1] at hafter
    simp only [List.map_append, List.map_singleton, List.reverse_append, List.reverse_singleton,
      List.singleton_append, List.cons_append] at hafter
    exact not_mem_take_last _ _ _ _ _ _ hbefore hafter (hA _ hk1) (hA k' hk'1) hk'

/-- C4, witness: a cache of capacity 3 holding two entries, a hit on the older one, one fresh insertion. -/
theorem get_refreshes_recency_witness :
    (sampleCacheTwo.get 1000 258 1700000000 500).1 = some samplePacket ∧
    ((sampleCacheTwo.get 1000 258 1700000000 500).2.putAll [(samplePacket3, 1, 600)]).hasKey
      (makeKey 258 1700000000) :=
  ⟨rfl,
    ((get_refreshes_recency 1000 3 sampleCacheTwo (reachable_sampleCacheTwo 1000)
      258 1700000000 500 samplePacket rfl).2 [(samplePacket3, 1, 600)]
      (by
        intro q hq
        rw [List.mem_singleton.mp hq]
        exact samplePacket3_wellFormed)
      (by decide) (by decide) samplePacket2.key (by decide) (by decide)).1 (by decide)⟩

/-! ## Expiry and group history (C5, C6) -/

theorem tdiv_gt_iff (a : Int) (b T : Nat) (hb : 1 ≤ b) :
    a.tdiv (b : Int) > (T : Int) ↔ ((T : Int) + 1) * (b : Int) ≤ a := by
  have hb' : (0 : Int) < (b : Int) := by exact_mod_cast hb
  have hT : (0 : Int) ≤ (T : Int) := Int.ofNat_nonneg T
  by_cases ha : 0 ≤ a
  · rw [Int.tdiv_eq_ediv ha (le_of_lt hb'), gt_iff_lt, ← Int.le_ediv_iff_mul_le hb']
    omega
  · have hneg : a.tdiv (b : Int) ≤ 0 := by
      have h1 : a = -(-a) := by omega
      rw [h1, Int.neg_tdiv]
      have := @Int.tdiv_nonneg (-a) (b : Int) (by omega) (le_of_lt hb')
      omega
    have hpos : 0 < ((T : Int) + 1) * (b : Int) := Int.mul_pos (by omega) hb'
    constructor
    · intro h; omega
    · intro h; omega

/-- An entry is expired exactly when at least `ttl + 1` whole seconds have
passed since its creation. -/
theorem isExpired_iff (tps : Nat) (htps : 1 ≤ tps) (e : CacheEntry) (now : Int) :
    e.isExpired tps now = true ↔ ((e.ttl : Int) + 1) * (tps : Int) ≤ now - e.timestamp := by
  unfold CacheEntry.isExpired
  rw [decide_eq_true_iff]
  exact tdiv_gt_iff _ _ _ htps

/-- What the loop of `getGroupHistory` returns: the packets of the matching
nodes, in list order, until the vector built so far has reached `limit`, but
at least one of them when there is one. -/
theorem historyScan_eq (tps : Nat) (now : Int) (groupID limit : Nat) (l : List ListNode) :
    ∀ history : List ChatPacket,
      historyScan tps now groupID limit l history =
        history ++ ((l.filter (historyMatch tps now groupID)).map
          (fun n => n.entry.message)).take (max 1 (limit - history.length)) := by
  induction l with
  | nil => intro history; simp [historyScan]
  | cons n rest ih =>
    intro history
    unfold historyScan
    by_cases hm : n.entry.message.groupID = groupID ∧ n.entry.isExpired tps now = false
    · have hmatch : historyMatch tps now groupID n = true := by
        unfold historyMatch; simp [hm.1, hm.2]
      rw [if_pos hm, List.filter_cons_of_pos hmatch, List.map_cons]
      by_cases hfull : (history ++ [n.entry.message]).length ≥ limit
      · rw [if_pos hfull]
        rw [List.length_append, List.length_singleton] at hfull
        have : max 1 (limit - history.length) = 1 := by omega
        rw [this, List.take_succ_cons, List.take_zero]
      · rw [if_neg hfull, ih]
        rw [List.length_append, List.length_singleton] at hfull ⊢
        obtain ⟨j, hj⟩ : ∃ j, limit - history.length = j + 2 :=
          ⟨limit - history.length - 2, by omega⟩
        have h1 : max 1 (limit - (history.length + 1)) = j + 1 := by omega
        have h2 : max 1 (limit - history.length) = j + 2 := by omega
        rw [h1, h2, List.take_succ_cons, List.append_assoc, List.singleton_append]
    · have hmatch : ¬ historyMatch tps now groupID n = true := by
        unfold historyMatch
        intro h
        simp only [Bool.and_eq_true, decide_eq_true_eq, Bool.not_eq_true'] at h
        exact hm h
      rw [if_neg hm, List.filter_cons_of_neg hmatch, ih]

theorem getGroupHistory_eq (tps : Nat) (c : LRUCache) (groupID limit : Nat) (now : Int) :
    c.getGroupHistory tps groupID limit now =
      ((c.cacheList.filter (historyMatch tps now groupID)).map
        (fun n => n.entry.message)).take (max 1 limit) := by
  unfold LRUCache.getGroupHistory
  rw [historyScan_eq]
  simp

/-- For a positive limit the history holds at most `limit` packets. -/
theorem getGroupHistory_length_le (tps : Nat) (c : LRUCache) (groupID limit : Nat) (now : Int)
    (hlimit : 1 ≤ limit) : (c.getGroupHistory tps groupID limit now).length ≤ limit := by
  rw [getGroupHistory_eq, List.length_take]
  omega

/-- C6, at the failing input. With `limit = 0` the loop of `getGroupHistory`
appends the first matching packet before it tests the limit: on a cache that
holds one live message of group 258 the call `getGroupHistory(258, 0)` returns
that message, one packet and not at most zero. -/
theorem getGroupHistory_limit_zero :
    sampleCache.getGroupHistory 1000 258 0 5000 = [samplePacket] ∧
    ¬ (sampleCache.getGroupHistory 1000 258 0 5000).length ≤ 0 :=
  ⟨rfl, by decide⟩

theorem key_of_message_eq {n m : ListNode} (h : m.entry.message = n.entry.message) :
    m.key = n.key := by
  unfold ListNode.key
  rw [h]

theorem mem_take_of_lt {α : Type} (A B : List α) (p : α) (k : Nat) (h : A.length < k) :
    p ∈ (A ++ p :: B).take k := by
  rw [List.take_append_eq_append_take]
  apply List.mem_append_right
  obtain ⟨j, hj⟩ : ∃ j, k - A.length = j + 1 := ⟨k - A.length - 1, by omega⟩
  rw [hj, List.take_succ_cons]
  exact List.mem_cons_self _ _

/-- C5, counterexample. On a clock with 10^9 ticks per second, a message put
with a time to live of 1 second at clock reading 0 is still returned by `get`
and included by `getGroupHistory` 1.5 seconds later, although more than the
time to live has passed. -/
theorem cache_ttl_counterexample :
    (1500000000 : Int) - 0 > 1 * 1000000000 ∧
    (((LRUCache.new 200).put samplePacket 1 0).get 1000000000 258 1700000000 1500000000).1 =
      some samplePacket ∧
    samplePacket ∈
      ((LRUCache.new 200).put samplePacket 1 0).getGroupHistory 1000000000 258 10 1500000000 :=
  ⟨by decide, rfl, by
    have h : ((LRUCache.new 200).put samplePacket 1 0).getGroupHistory 1000000000 258 10
        1500000000 = [samplePacket] := rfl
    rw [h]
    exact List.mem_singleton_self _⟩

/-- C5, amended. `put(p, T)` at clock reading `t0` stores the entry
`(p, t0, T)` at the front. While that entry is in a reachable cache: at every
clock reading `now` with `now - t0 < T` seconds, `get` on the pair of `p`
returns `p`, and `getGroupHistory` for the group of `p` with a limit of at
least 1 includes `p` when fewer than `limit` live entries of the group are
ahead of it in the list; at every clock reading with `now - t0 >= T + 1`
seconds (the elapsed time in whole seconds exceeds `T`), `get` returns nothing,
removes the entry and counts a miss, and no `getGroupHistory` includes `p`. -/
theorem cache_ttl (tps cap : Nat) (htps : 1 ≤ tps) (c : LRUCache)
    (h : LRUCache.Reachable tps cap c) (i : Nat) (p : ChatPacket) (t0 : Int) (T : Nat)
    (hn : ({ id := i, entry := { message := p, timestamp := t0, ttl := T } } : ListNode) ∈
      c.cacheList) (now : Int) :
    (∀ c0 : LRUCache, LRUCache.Reachable tps cap c0 → 1 ≤ cap →
      (c0.put p T t0).cacheList.head? =
        some { id := c0.nextNode, entry := { message := p, timestamp := t0, ttl := T } }) ∧
    (now - t0 < (T : Int) * (tps : Int) →
      (c.get tps p.groupID p.timestamp now).1 = some p ∧
      ∀ (limit : Nat) (front back : List ListNode), 1 ≤ limit →
        c.cacheList =
          front ++ { id := i, entry := { message := p, timestamp := t0, ttl := T } } :: back →
        (front.filter (historyMatch tps now p.groupID)).length < limit →
        p ∈ c.getGroupHistory tps p.groupID limit now) ∧
    (((T : Int) + 1) * (tps : Int) ≤ now - t0 →
      (c.get tps p.groupID p.timestamp now).1 = none ∧
      ({ id := i, entry := { message := p, timestamp := t0, ttl := T } } : ListNode) ∉
        (c.get tps p.groupID p.timestamp now).2.cacheList ∧
      ¬ (c.get tps p.groupID p.timestamp now).2.holds p.groupID p.timestamp ∧
      (c.get tps p.groupID p.timestamp now).2.misses = (c.misses + 1) % 2 ^ 64 ∧
      ∀ groupID limit : Nat, p ∉ c.getGroupHistory tps groupID limit now) := by
  obtain ⟨hinv, hcap⟩ := reachable_inv tps cap c h
  have hexp := isExpired_iff tps htps { message := p, timestamp := t0, ttl := T } now
  refine ⟨?_, ?_, ?_⟩
  · intro c0 h0 hpos
    obtain ⟨hinv0, hcap0⟩ := reachable_inv tps cap c0 h0
    rw [put_list c0 hinv0, hcap0]
    obtain ⟨k, rfl⟩ : ∃ k, cap = k + 1 := ⟨cap - 1, by omega⟩
    rw [List.take_succ_cons]
    rfl
  · intro hlt
    have hlive : ({ message := p, timestamp := t0, ttl := T } : CacheEntry).isExpired tps now =
        false := by
      cases hc : ({ message := p, timestamp := t0, ttl := T } : CacheEntry).isExpired tps now with
      | false => rfl
      | true =>
        have h1 := hexp.mp hc
        have h2 : (T : Int) * (tps : Int) ≤ ((T : Int) + 1) * (tps : Int) := by
          have : (0 : Int) ≤ (tps : Int) := Int.ofNat_nonneg tps
          nlinarith
        simp only at h1
        omega
    constructor
    · rw [get_hit tps c hinv.core p.groupID p.timestamp now _ hn rfl hlive]
    · intro limit front back hlimit hsplit hahead
      rw [getGroupHistory_eq, hsplit, List.filter_append,
        List.filter_cons_of_pos (by unfold historyMatch; simp [hlive]), List.map_append,
        List.map_cons]
      apply mem_take_of_lt
      rw [List.length_map]
      omega
  · intro hge
    have hdead : ({ message := p, timestamp := t0, ttl := T } : CacheEntry).isExpired tps now =
        true := hexp.mpr hge
    rw [get_expired tps c hinv.core p.groupID p.timestamp now _ hn rfl hdead]
    refine ⟨rfl, ?_, ?_, rfl, ?_⟩
    · intro hmem
      exact (mem_listErase.mp hmem).2 rfl
    · rintro ⟨m, hm, hg, ht⟩
      have hm' := mem_listErase.mp hm
      have hkey : m.key = ListNode.key
          { id := i, entry := { message := p, timestamp := t0, ttl := T } } := by
        unfold ListNode.key; rw [hg, ht]
      exact hm'.2 (congrArg ListNode.id (hinv.core.key_inj hm'.1 hn hkey))
    · intro groupID limit hmem
      rw [getGroupHistory_eq] at hmem
      obtain ⟨m, hm, hmsg⟩ := List.mem_map.mp (List.mem_of_mem_take hmem)
      have hm' := List.mem_filter.mp hm
      have heq : m = { id := i, entry := { message := p, timestamp := t0, ttl := T } } :=
        hinv.core.key_inj hm'.1 hn (key_of_message_eq hmsg)
      have hmatch := hm'.2
      rw [heq] at hmatch
      unfold historyMatch at hmatch
      simp [hdead] at hmatch

theorem sampleCacheTwo_mem :
    ({ id := 0, entry := { message := samplePacket, timestamp := 0, ttl := 1 } } : ListNode) ∈
      sampleCacheTwo.cacheList := by
  have h : sampleCacheTwo.cacheList =
      [{ id := 1, entry := { message := samplePacket2, timestamp := 0, ttl := 1 } },
        { id := 0, entry := { message := samplePacket, timestamp := 0, ttl := 1 } }] := rfl
  rw [h]
  exact List.mem_cons_of_mem _ (List.mem_cons_self _ _)

/-- C5, witness: time to live 1 second on a clock with 1000 ticks per second: a hit after 0.5 seconds, a miss after 2 seconds. -/
theorem cache_ttl_witness :
    (sampleCacheTwo.get 1000 258 1700000000 500).1 = some samplePacket ∧
    (sampleCacheTwo.get 1000 258 1700000000 2000).1 = none ∧
    (sampleCacheTwo.get 1000 258 1700000000 2000).2.misses = 1 :=
  ⟨((cache_ttl 1000 3 (by decide) sampleCacheTwo (reachable_sampleCacheTwo 1000) 0 samplePacket
      0 1 sampleCacheTwo_mem 500).2.1 (by decide)).1,
    ((cache_ttl 1000 3 (by decide) sampleCacheTwo (reachable_sampleCacheTwo 1000) 0 samplePacket
      0 1 sampleCacheTwo_mem 2000).2.2 (by decide)).1,
    ((cache_ttl 1000 3 (by decide) sampleCacheTwo (reachable_sampleCacheTwo 1000) 0 samplePacket
      0 1 sampleCacheTwo_mem 2000).2.2 (by decide)).2.2.2.1⟩

/-! ## Key collision (C7) -/

theorem samplePacketB_wellFormed : samplePacketB.WellFormed := by
  refine ⟨by decide, by decide, by decide, by decide, by decide, ?_, ?_⟩
  · simp only [samplePacketB, samplePacket, List.length_cons, List.length_replicate]
  · intro b hb
    simp only [samplePacketB, samplePacket, List.mem_cons, List.mem_replicate] at hb
    omega

theorem sampleCache_mem :
    ({ id := 0, entry := { message := samplePacket, timestamp := 0, ttl := 3600 } } : ListNode) ∈
      sampleCache.cacheList := by
  have h : sampleCache.cacheList =
      [{ id := 0, entry := { message := samplePacket, timestamp := 0, ttl := 3600 } }] := rfl
  rw [h]
  exact List.mem_cons_self _ _

/-- C7. Key collision overwrite. The 64-bit key is injective on pairs of a
16-bit group and a 32-bit timestamp. For a node `n` of a reachable cache and a
packet `p2`: the first part of `put(p2)` ("remove if already exists") removes
`n` if and only if the packet of `n` has the group and the timestamp of `p2`;
and in that case the list after `put(p2)` is a new node carrying `p2` in front
of the old list without `n`, it has exactly one node for that pair, as many
nodes as before, and the eviction counter is unchanged. -/
theorem put_overwrites_same_pair (tps cap : Nat) (c : LRUCache)
    (h : LRUCache.Reachable tps cap c) (p2 : ChatPacket) (hwf : p2.WellFormed) (ttl : Nat)
    (now : Int) (n : ListNode) (hn : n ∈ c.cacheList) :
    (∀ g t g' t' : Nat, g < 2 ^ 16 → t < 2 ^ 32 → g' < 2 ^ 16 → t' < 2 ^ 32 →
      makeKey g t = makeKey g' t' → g = g' ∧ t = t') ∧
    (n ∉ (c.eraseExisting (makeKey p2.groupID p2.timestamp)).cacheList ↔
      n.entry.message.groupID = p2.groupID ∧ n.entry.message.timestamp = p2.timestamp) ∧
    (n.entry.message.groupID = p2.groupID ∧ n.entry.message.timestamp = p2.timestamp →
      (c.put p2 ttl now).cacheList =
        { id := c.nextNode, entry := { message := p2, timestamp := now, ttl := ttl } } ::
          listErase c.cacheList n.id ∧
      ((c.put p2 ttl now).cacheList.filter (samePair p2.groupID p2.timestamp)).length = 1 ∧
      (c.put p2 ttl now).cacheList.length = c.cacheList.length ∧
      (c.put p2 ttl now).evictions = c.evictions) := by
  obtain ⟨hinv, hcap⟩ := reachable_inv tps cap c h
  have hkey := key_eq_iff n.entry.message p2 (hinv.core.wf n hn) hwf
  refine ⟨fun g t g' t' hg ht hg' ht' => makeKey_inj g t g' t' hg ht hg' ht', ?_, ?_⟩
  · rw [eraseExisting_list c hinv.core, List.mem_filter, ← hkey]
    simp only [hn, true_and, ne_eq, decide_not, Bool.not_eq_true', decide_eq_false_iff_not,
      not_not]
    rfl
  · intro hsame
    have hnk : n.key = makeKey p2.groupID p2.timestamp := hkey.mpr hsame
    have hfilter : c.cacheList.filter
        (fun m => decide (m.key ≠ makeKey p2.groupID p2.timestamp)) =
          listErase c.cacheList n.id := by
      rw [hinv.core.listErase_eq hn, hnk]
    have hlen := moveToFront_length c.cacheList n hn hinv.core.ids_nodup
    rw [List.length_cons] at hlen
    have hlist : (c.put p2 ttl now).cacheList =
        { id := c.nextNode, entry := { message := p2, timestamp := now, ttl := ttl } } ::
          listErase c.cacheList n.id := by
      rw [put_list c hinv, hfilter]
      apply List.take_of_length_le
      rw [List.length_cons, hlen]
      exact hinv.size_le
    refine ⟨hlist, ?_, ?_, ?_⟩
    · rw [hlist, List.filter_cons_of_pos (by simp [samePair])]
      have hnone : (listErase c.cacheList n.id).filter (samePair p2.groupID p2.timestamp) = [] := by
        rw [List.filter_eq_nil_iff]
        intro m hm hpair
        have hm' := mem_listErase.mp hm
        unfold samePair at hpair
        simp only [Bool.and_eq_true, decide_eq_true_eq] at hpair
        have hmk : m.key = n.key := by
          rw [hnk]; unfold ListNode.key; rw [hpair.1, hpair.2]
        exact hm'.2 (congrArg ListNode.id (hinv.core.key_inj hm'.1 hn hmk))
      rw [hnone]
      rfl
    · rw [hlist, List.length_cons, hlen]
    · rw [put_evictions c hinv, hfilter, if_neg]
      have := hinv.size_le
      omega

/-- C7, witness: a packet with the pair of the only stored entry replaces it. -/
theorem put_overwrites_same_pair_witness :
    (sampleCache.put samplePacketB 60 7000).cacheList =
      [{ id := 1, entry := { message := samplePacketB, timestamp := 7000, ttl := 60 } }] ∧
    (sampleCache.put samplePacketB 60 7000).evictions = 0 :=
  ⟨((put_overwrites_same_pair 1000 1 sampleCache (reachable_sampleCache 1000) samplePacketB
      samplePacketB_wellFormed 60 7000 _ sampleCache_mem).2.2 (by decide)).1,
    ((put_overwrites_same_pair 1000 1 sampleCache (reachable_sampleCache 1000) samplePacketB
      samplePacketB_wellFormed 60 7000 _ sampleCache_mem).2.2 (by decide)).2.2.2⟩

/-! ## Group registry: exclusivity (C8) -/

theorem mapModify_keys {β : Type} (m : List (Nat × β)) (k : Nat) (f : β → β) :
    (mapModify m k f).map Prod.fst = m.map Prod.fst := by
  unfold mapModify
  rw [List.map_map]
  apply List.map_congr_left
  intro kv _
  by_cases h : kv.1 = k <;> simp [h]

theorem mem_removeMember (g : ChatGroup) (c x : Nat) :
    x ∈ (g.removeMember c).members ↔ x ∈ g.members ∧ x ≠ c := by
  unfold ChatGroup.removeMember
  simp [List.mem_filter]

theorem mem_addMember (g : ChatGroup) (c x : Nat) :
    x ∈ (g.addMember c).members ↔ x ∈ g.members ∨ x = c := by
  unfold ChatGroup.addMember
  by_cases h : c ∈ g.members
  · simp only [if_pos h]
    constructor
    · exact Or.inl
    · rintro (hx | hx)
      · exact hx
      · rw [hx]; exact h
  · simp only [if_neg h, List.mem_cons]
    tauto

theorem new_inv_registry : GroupManager.new.Inv := by
  refine ⟨by decide, ?_⟩
  intro g grp c hfind hmem
  unfold GroupManager.new GroupManager.createGroup at hfind
  simp only [mapFind_mapAssign] at hfind
  by_cases hg : g = 1
  · rw [if_pos hg] at hfind
    simp only [Option.some.injEq] at hfind
    rw [← hfind] at hmem
    simp at hmem
  · rw [if_neg hg] at hfind
    simp [mapFind] at hfind

theorem createGroup_inv (m : GroupManager) (h : m.Inv) (name : List Nat) :
    (m.createGroup name).2.Inv := by
  refine ⟨mapAssign_keys_nodup _ _ _ h.groups_nodup, ?_⟩
  intro g grp c hfind hmem
  unfold GroupManager.createGroup at hfind ⊢
  simp only [mapFind_mapAssign] at hfind ⊢
  by_cases hg : g = m.nextGroupID
  · rw [if_pos hg] at hfind
    simp only [Option.some.injEq] at hfind
    rw [← hfind] at hmem
    simp at hmem
  · rw [if_neg hg] at hfind
    exact h.member_index g grp c hfind hmem

theorem joinGroup_inv (m : GroupManager) (h : m.Inv) (clientID groupID : Nat) :
    (m.joinGroup clientID groupID).2.Inv := by
  unfold GroupManager.joinGroup
  cases htarget : mapFind m.groups groupID with
  | none => exact h
  | some target =>
    simp only
    refine ⟨?_, ?_⟩
    · rw [mapModify_keys]
      cases mapFind m.clientGroups clientID with
      | none => exact h.groups_nodup
      | some current => simp only; rw [mapModify_keys]; exact h.groups_nodup
    · intro g grp c hfind hmem
      rw [mapFind_mapAssign]
      rw [mapFind_mapModify] at hfind
      by_cases hc : c = clientID
      · rw [if_pos hc]
        by_cases hg : g = groupID
        · rw [hg]
        · exfalso
          rw [if_neg hg] at hfind
          subst hc
          cases hcur : mapFind m.clientGroups c with
          | none =>
            rw [hcur] at hfind
            have := h.member_index g grp c hfind hmem
            rw [hcur] at this
            exact Option.noConfusion this
          | some current =>
            rw [hcur] at hfind
            simp only [mapFind_mapModify] at hfind
            by_cases hgc : g = current
            · rw [if_pos hgc] at hfind
              obtain ⟨old, -, hold⟩ := Option.map_eq_some'.mp hfind
              rw [← hold] at hmem
              exact ((mem_removeMember old c c).mp hmem).2 rfl
            · rw [if_neg hgc] at hfind
              have := h.member_index g grp c hfind hmem
              rw [hcur] at this
              simp only [Option.some.injEq] at this
              exact hgc this.symm
      · rw [if_neg hc]
        have hleft : ∀ g' grp', mapFind
            (match mapFind m.clientGroups clientID with
              | some current => mapModify m.groups current (fun g => g.removeMember clientID)
              | none => m.groups) g' = some grp' → c ∈ grp'.members →
            mapFind m.clientGroups c = some g' := by
          intro g' grp' hf hm
          cases hcur : mapFind m.clientGroups clientID with
          | none =>
            rw [hcur] at hf
            exact h.member_index g' grp' c hf hm
          | some current =>
            rw [hcur] at hf
            simp only [mapFind_mapModify] at hf
            by_cases hgc : g' = current
            · rw [if_pos hgc] at hf
              obtain ⟨old, hold1, hold⟩ := Option.map_eq_some'.mp hf
              rw [← hold] at hm
              exact h.member_index g' old c hold1 ((mem_removeMember old clientID c).mp hm).1
            · rw [if_neg hgc] at hf
              exact h.member_index g' grp' c hf hm
        by_cases hg : g = groupID
        · rw [if_pos hg] at hfind
          obtain ⟨old, hold1, hold⟩ := Option.map_eq_some'.mp hfind
          rw [← hold] at hmem
          rcases (mem_addMember old clientID c).mp hmem with hm | hm
          · exact hleft g old hold1 hm
          · exact absurd hm hc
        · rw [if_neg hg] at hfind
          exact hleft g grp hfind hmem

theorem leaveGroup_inv (m : GroupManager) (h : m.Inv) (clientID : Nat) :
    (m.leaveGroup clientID).Inv := by
  unfold GroupManager.leaveGroup
  cases hcur : mapFind m.clientGroups clientID with
  | none => exact h
  | some current =>
    simp only
    refine ⟨by rw [mapModify_keys]; exact h.groups_nodup, ?_⟩
    intro g grp c hfind hmem
    rw [mapFind_mapErase]
    rw [mapFind_mapModify] at hfind
    have hold : ∃ old, mapFind m.groups g = some old ∧ c ∈ old.members ∧
        ¬ (g = current ∧ c = clientID) := by
      by_cases hg : g = current
      · rw [if_pos hg] at hfind
        obtain ⟨old, hold1, hold⟩ := Option.map_eq_some'.mp hfind
        rw [← hold] at hmem
        have := (mem_removeMember old clientID c).mp hmem
        exact ⟨old, hold1, this.1, fun hh => this.2 hh.2⟩
      · rw [if_neg hg] at hfind
        exact ⟨grp, hfind, hmem, fun hh => hg hh.1⟩
    obtain ⟨old, hold1, hold2, hold3⟩ := hold
    have hidx := h.member_index g old c hold1 hold2
    by_cases hc : c = clientID
    · exfalso
      rw [hc, hcur] at hidx
      simp only [Option.some.injEq] at hidx
      exact hold3 ⟨hidx.symm, hc⟩
    · rw [if_neg hc]
      exact hidx

theorem apply_inv (m : GroupManager) (h : m.Inv) (op : RegistryOp) : (m.apply op).Inv := by
  cases op with
  | createGroup name => exact createGroup_inv m h name
  | joinGroup clientID groupID => exact joinGroup_inv m h clientID groupID
  | leaveGroup clientID => exact leaveGroup_inv m h clientID

theorem run_inv (ops : List RegistryOp) : ∀ m : GroupManager, m.Inv → (m.run ops).Inv := by
  induction ops with
  | nil => intro m h; exact h
  | cons op rest ih => intro m h; exact ih (m.apply op) (apply_inv m h op)

theorem mem_getGroupMembers (m : GroupManager) (g c : Nat) :
    c ∈ m.getGroupMembers g ↔ ∃ grp, mapFind m.groups g = some grp ∧ c ∈ grp.members := by
  unfold GroupManager.getGroupMembers ChatGroup.getMembers
  cases mapFind m.groups g with
  | none => simp
  | some grp => simp

/-- C8. Group exclusivity: in every registry state reached from construction
by `createGroup`, `joinGroup` and `leaveGroup` calls, a client is in the member
set of at most one group (and no two group objects share an identifier); and
when the client is a member of `g1` and `joinGroup(c, g2)` with `g2` different
from `g1` returns true, afterwards the client is not a member of `g1`, is a
member of `g2`, and `getClientGroup(c)` is `g2`. -/
theorem group_exclusivity (ops : List RegistryOp) :
    (∀ c g1 g2 : Nat, c ∈ (GroupManager.new.run ops).getGroupMembers g1 →
      c ∈ (GroupManager.new.run ops).getGroupMembers g2 → g1 = g2) ∧
    ((GroupManager.new.run ops).groups.map Prod.fst).Nodup ∧
    (∀ c g1 g2 : Nat, g1 ≠ g2 → c ∈ (GroupManager.new.run ops).getGroupMembers g1 →
      ((GroupManager.new.run ops).joinGroup c g2).1 = true →
      c ∉ ((GroupManager.new.run ops).joinGroup c g2).2.getGroupMembers g1 ∧
      c ∈ ((GroupManager.new.run ops).joinGroup c g2).2.getGroupMembers g2 ∧
      ((GroupManager.new.run ops).joinGroup c g2).2.getClientGroup c = g2) := by
  have hinv := run_inv ops GroupManager.new new_inv_registry
  generalize GroupManager.new.run ops = m at hinv
  refine ⟨?_, hinv.groups_nodup, ?_⟩
  · intro c g1 g2 h1 h2
    obtain ⟨grp1, hf1, hm1⟩ := (mem_getGroupMembers m g1 c).mp h1
    obtain ⟨grp2, hf2, hm2⟩ := (mem_getGroupMembers m g2 c).mp h2
    have e1 := hinv.member_index g1 grp1 c hf1 hm1
    have e2 := hinv.member_index g2 grp2 c hf2 hm2
    rw [e1] at e2
    exact Option.some.inj e2
  · intro c g1 g2 hne h1 hjoin
    obtain ⟨grp1, hf1, hm1⟩ := (mem_getGroupMembers m g1 c).mp h1
    have hcur := hinv.member_index g1 grp1 c hf1 hm1
    unfold GroupManager.joinGroup at hjoin ⊢
    cases htarget : mapFind m.groups g2 with
    | none =>
      rw [htarget] at hjoin
      exact Bool.noConfusion hjoin
    | some target =>
      simp only [hcur]
      refine ⟨?_, ?_, ?_⟩
      · rw [mem_getGroupMembers]
        rintro ⟨grp, hfind, hmem⟩
        simp only [mapFind_mapModify, if_neg hne, if_true, hf1, Option.map_some',
          Option.some.injEq] at hfind
        rw [← hfind] at hmem
        exact ((mem_removeMember grp1 c c).mp hmem).2 rfl
      · rw [mem_getGroupMembers]
        refine ⟨target.addMember c, ?_, (mem_addMember target c c).mpr (Or.inr rfl)⟩
        simp only [mapFind_mapModify, if_true, if_neg (Ne.symm hne), htarget, Option.map_some']
      · unfold GroupManager.getClientGroup
        simp only [mapFind_mapAssign, if_true]

/-- C8, witness: client 7 moves from group 1 to group 2. -/
theorem group_exclusivity_witness :
    7 ∉ ((GroupManager.new.run
      [RegistryOp.createGroup (cstr "Team"), RegistryOp.joinGroup 7 1]).joinGroup 7 2).2.getGroupMembers
        1 ∧
    7 ∈ ((GroupManager.new.run
      [RegistryOp.createGroup (cstr "Team"), RegistryOp.joinGroup 7 1]).joinGroup 7 2).2.getGroupMembers
        2 :=
  have h := (group_exclusivity
    [RegistryOp.createGroup (cstr "Team"), RegistryOp.joinGroup 7 1]).2.2 7 1 2 (by decide)
    (by decide) (by decide)
  ⟨h.1, h.2.1⟩

/-! ## Join to a nonexistent group (C9) -/

theorem digitChar_ne_zero : ∀ d : Nat, d < 10 → (Nat.digitChar d).toNat ≠ 0 := by decide

theorem toDigitsCore_ne_zero (fuel : Nat) :
    ∀ (n : Nat) (acc : List Char), (∀ c ∈ acc, c.toNat ≠ 0) →
      ∀ c ∈ Nat.toDigitsCore 10 fuel n acc, c.toNat ≠ 0 := by
  induction fuel with
  | zero => intro n acc hacc c hc; exact hacc c hc
  | succ fuel ih =>
    intro n acc hacc c hc
    have hcons : ∀ x ∈ Nat.digitChar (n % 10) :: acc, x.toNat ≠ 0 := by
      intro x hx
      rcases List.mem_cons.mp hx with rfl | hx
      · exact digitChar_ne_zero _ (Nat.mod_lt _ (by decide))
      · exact hacc x hx
    unfold Nat.toDigitsCore at hc
    by_cases hz : n / 10 = 0
    · simp only [hz, if_true] at hc
      exact hcons c hc
    · simp only [hz, if_false] at hc
      exact ih _ _ hcons c hc

theorem toDigitsCore_length (k : Nat) :
    ∀ (fuel n : Nat) (acc : List Char), n < 10 ^ (k + 1) →
      (Nat.toDigitsCore 10 fuel n acc).length ≤ acc.length + (k + 1) := by
  induction k with
  | zero =>
    intro fuel n acc hn
    cases fuel with
    | zero => unfold Nat.toDigitsCore; omega
    | succ fuel =>
      unfold Nat.toDigitsCore
      have hz : n / 10 = 0 := by omega
      simp only [hz, if_true, List.length_cons]
      omega
  | succ k ih =>
    intro fuel n acc hn
    cases fuel with
    | zero => unfold Nat.toDigitsCore; omega
    | succ fuel =>
      unfold Nat.toDigitsCore
      by_cases hz : n / 10 = 0
      · simp only [hz, if_true, List.length_cons]
        omega
      · simp only [hz, if_false]
        have hdiv : n / 10 < 10 ^ (k + 1) := by
          rw [Nat.div_lt_iff_lt_mul (by decide)]
          rw [pow_succ] at hn
          exact hn
        have := ih fuel (n / 10) (Nat.digitChar (n % 10) :: acc) hdiv
        rw [List.length_cons] at this
        omega

theorem decimal_eq (n : Nat) : decimal n = (Nat.toDigits 10 n).map Char.toNat := rfl

theorem decimal_ne_zero (n : Nat) : ∀ b ∈ decimal n, b ≠ 0 := by
  intro b hb
  rw [decimal_eq] at hb
  obtain ⟨c, hc, rfl⟩ := List.mem_map.mp hb
  exact toDigitsCore_ne_zero _ _ _ (by simp) c hc

theorem decimal_length (n : Nat) (h : n < 2 ^ 16) : (decimal n).length ≤ 5 := by
  rw [decimal_eq, List.length_map]
  have := toDigitsCore_length 4 (n + 1) n [] (by omega)
  simpa [Nat.toDigits] using this

theorem cString_append_zeros (text : List Nat) (k : Nat) (h : ∀ b ∈ text, b ≠ 0) :
    cString (text ++ List.replicate k 0) = text := by
  unfold cString
  induction text with
  | nil =>
    cases k with
    | zero => rfl
    | succ k => simp [List.replicate_succ, List.takeWhile_cons]
  | cons b rest ih =>
    have hb : b ≠ 0 := h b (List.mem_cons_self _ _)
    rw [List.cons_append, List.takeWhile_cons_of_pos (by simp [hb]),
      ih (fun x hx => h x (List.mem_cons_of_mem _ hx))]

theorem cString_snprintfPayload (text : List Nat) (h : ∀ b ∈ text, b ≠ 0)
    (hlen : text.length ≤ 255) : cString (snprintfPayload text) = text := by
  unfold snprintfPayload
  rw [List.take_of_length_le hlen]
  exact cString_append_zeros text _ h

theorem joinText_ne_zero (g : Nat) : ∀ b ∈ cstr "Failed to join group " ++ decimal g, b ≠ 0 := by
  intro b hb
  rcases List.mem_append.mp hb with h | h
  · have hlit : ∀ x ∈ cstr "Failed to join group ", x ≠ 0 := by decide
    exact hlit b h
  · exact decimal_ne_zero g b h

theorem joinText_length (g : Nat) (hg : g < 2 ^ 16) :
    (cstr "Failed to join group " ++ decimal g).length ≤ 26 := by
  have hlit : (cstr "Failed to join group ").length = 21 := by decide
  have := decimal_length g hg
  rw [List.length_append, hlit]
  omega

/-- C9. Join to a nonexistent group fails atomically: when no group has the
identifier `g`, `joinGroup(c, g)` returns false and the registry is unchanged;
and the dispatcher, handling a `JOIN_GROUP` packet for `g` from client `c`,
leaves the server state unchanged and sends exactly one packet (no history is
replayed): the response of type `MSG_ERROR` from sender 0 whose payload is
what `snprintf` stores for the text "Failed to join group " followed by the
decimal digits of `g`; for a 16-bit `g` the C string in the payload is exactly
that text and `payloadSize` is its length. -/
theorem join_nonexistent_fails (m : GroupManager) (c g : Nat)
    (hg : mapFind m.groups g = none) :
    m.joinGroup c g = (false, m) ∧
    ∀ (littleEndian : Bool) (tps : Nat) (now : Int) (srv : Server) (raw : ChatPacket),
      srv.groupManager = m → (raw.toHostOrder littleEndian).type = MSG_JOIN_GROUP →
      (raw.toHostOrder littleEndian).groupID = g →
      ∃ response : ChatPacket,
        handlePacket littleEndian tps now srv c raw = (srv, [response]) ∧
        response.type = MSG_ERROR ∧
        (response.toHostOrder littleEndian).senderID = 0 ∧
        response.payload = snprintfPayload (cstr "Failed to join group " ++ decimal g) ∧
        (g < 2 ^ 16 →
          cString response.payload = cstr "Failed to join group " ++ decimal g ∧
          (response.toHostOrder littleEndian).payloadSize =
            (cstr "Failed to join group " ++ decimal g).length) := by
  have hjoin : m.joinGroup c g = (false, m) := by
    unfold GroupManager.joinGroup
    rw [hg]
  refine ⟨hjoin, ?_⟩
  intro littleEndian tps now srv raw hsrv htype hgroup
  refine ⟨sendResponse littleEndian
    { ChatPacket.new with
      senderID := 0
      timestamp := getCurrentTimestamp tps now
      type := MSG_ERROR
      payload := snprintfPayload (cstr "Failed to join group " ++ decimal g) }, ?_, rfl, ?_, rfl, ?_⟩
  · unfold handlePacket
    simp only [htype, if_true, hgroup, hsrv, hjoin]
    cases srv
    simp_all
  · cases littleEndian
    · rfl
    · show bswap32 (bswap32 0) = 0
      decide
  · intro hsmall
    have hlen := joinText_length g hsmall
    have htext := cString_snprintfPayload _ (joinText_ne_zero g) (by omega)
    refine ⟨htext, ?_⟩
    have hsize : strlen (snprintfPayload (cstr "Failed to join group " ++ decimal g)) =
        (cstr "Failed to join group " ++ decimal g).length := by
      unfold strlen; rw [htext]
    cases littleEndian
    · exact hsize
    · show bswap16 (bswap16
        (strlen (snprintfPayload (cstr "Failed to join group " ++ decimal g)))) = _
      rw [hsize, bswap16_bswap16 _ (by omega)]

/-- C9, witness: client 7 asks to join group 99 on a freshly started server. -/
theorem join_nonexistent_fails_witness :
    GroupManager.new.joinGroup 7 99 = (false, GroupManager.new) ∧
    (handlePacket true 1000 0 Server.new 7 sampleJoin).1 = Server.new ∧
    (handlePacket true 1000 0 Server.new 7 sampleJoin).2.map
        (fun r => (r.type, r.payload, (r.toHostOrder true).payloadSize)) =
      [(MSG_ERROR, cstr "Failed to join group 99" ++ List.replicate 233 0, 23)] := by
  have h := join_nonexistent_fails GroupManager.new 7 99 (by decide)
  obtain ⟨response, h1, h2, -, h4, h5⟩ := h.2 true 1000 0 Server.new sampleJoin rfl (by decide)
    (by decide)
  refine ⟨h.1, by rw [h1], ?_⟩
  rw [h1, List.map_singleton, h2, h4, (h5 (by decide)).2]
  rfl

/-! ## Group identifiers (C10) -/

theorem mapFind_mapModify_ne_none {β : Type} (m : List (Nat × β)) (k g : Nat) (f : β → β) :
    mapFind (mapModify m k f) g ≠ none ↔ mapFind m g ≠ none := by
  rw [mapFind_mapModify]
  by_cases hg : g = k
  · rw [if_pos hg]
    cases mapFind m g <;> simp
  · rw [if_neg hg]

theorem joinGroup_groups_ne_none (m : GroupManager) (c g g' : Nat) :
    mapFind (m.joinGroup c g).2.groups g' ≠ none ↔ mapFind m.groups g' ≠ none := by
  unfold GroupManager.joinGroup
  cases mapFind m.groups g with
  | none => rfl
  | some target =>
    simp only
    rw [mapFind_mapModify_ne_none]
    cases mapFind m.clientGroups c with
    | none => rfl
    | some current => simp only; rw [mapFind_mapModify_ne_none]

theorem leaveGroup_groups_ne_none (m : GroupManager) (c g' : Nat) :
    mapFind (m.leaveGroup c).groups g' ≠ none ↔ mapFind m.groups g' ≠ none := by
  unfold GroupManager.leaveGroup
  cases mapFind m.clientGroups c with
  | none => rfl
  | some current => simp only; rw [mapFind_mapModify_ne_none]

theorem joinGroup_nextGroupID (m : GroupManager) (c g : Nat) :
    (m.joinGroup c g).2.nextGroupID = m.nextGroupID := by
  unfold GroupManager.joinGroup
  cases mapFind m.groups g <;> rfl

theorem leaveGroup_nextGroupID (m : GroupManager) (c : Nat) :
    (m.leaveGroup c).nextGroupID = m.nextGroupID := by
  unfold GroupManager.leaveGroup
  cases mapFind m.clientGroups c <;> rfl

theorem createGroup_tracks (m : GroupManager) (k : Nat) (h : m.Tracks k) (name : List Nat) :
    (m.createGroup name).2.Tracks (k + 1) := by
  obtain ⟨hnext, hkeys⟩ := h
  unfold GroupManager.createGroup
  refine ⟨?_, ?_⟩
  · show (m.nextGroupID + 1) % 2 ^ 16 = (2 + (k + 1)) % 2 ^ 16
    rw [hnext]
    omega
  · intro hle g hfind
    have hsmall : 2 + k < 2 ^ 16 := by omega
    have hnext' : m.nextGroupID = 2 + k := by rw [hnext]; exact Nat.mod_eq_of_lt hsmall
    simp only [mapFind_mapAssign] at hfind
    by_cases hg : g = m.nextGroupID
    · omega
    · rw [if_neg hg] at hfind
      have := hkeys (by omega) g hfind
      omega

theorem apply_tracks (m : GroupManager) (k : Nat) (h : m.Tracks k) (op : RegistryOp) :
    (m.apply op).Tracks (k + createCount [op]) := by
  cases op with
  | createGroup name => exact createGroup_tracks m k h name
  | joinGroup c g =>
    refine ⟨by rw [show (m.apply (.joinGroup c g)) = (m.joinGroup c g).2 from rfl,
      joinGroup_nextGroupID]; exact h.1, ?_⟩
    intro hle g' hfind
    exact h.2 hle g' ((joinGroup_groups_ne_none m c g g').mp hfind)
  | leaveGroup c =>
    refine ⟨by rw [show (m.apply (.leaveGroup c)) = m.leaveGroup c from rfl,
      leaveGroup_nextGroupID]; exact h.1, ?_⟩
    intro hle g' hfind
    exact h.2 hle g' ((leaveGroup_groups_ne_none m c g').mp hfind)

theorem createCount_cons (op : RegistryOp) (rest : List RegistryOp) :
    createCount (op :: rest) = createCount [op] + createCount rest := by
  cases op <;> simp [createCount]; omega

theorem run_tracks (ops : List RegistryOp) :
    ∀ (m : GroupManager) (k : Nat), m.Tracks k → (m.run ops).Tracks (k + createCount ops) := by
  induction ops with
  | nil => intro m k h; exact h
  | cons op rest ih =>
    intro m k h
    have := ih (m.apply op) (k + createCount [op]) (apply_tracks m k h op)
    rw [createCount_cons, ← Nat.add_assoc]
    exact this

theorem new_tracks : GroupManager.new.Tracks 0 := by
  refine ⟨rfl, ?_⟩
  intro _ g hfind
  unfold GroupManager.new GroupManager.createGroup at hfind
  simp only [mapFind_mapAssign] at hfind
  by_cases hg : g = 1
  · omega
  · rw [if_neg hg] at hfind
    simp [mapFind] at hfind

theorem reachable_tracks (ops : List RegistryOp) :
    (GroupManager.new.run ops).Tracks (createCount ops) := by
  have := run_tracks ops GroupManager.new 0 new_tracks
  rwa [Nat.zero_add] at this

theorem createCount_replicate (n : Nat) (name : List Nat) :
    createCount (List.replicate n (RegistryOp.createGroup name)) = n := by
  induction n with
  | zero => rfl
  | succ k ih => rw [List.replicate_succ, createCount, ih]

theorem general_exists (ops : List RegistryOp) :
    ∀ m : GroupManager, mapFind m.groups 1 ≠ none → mapFind (m.run ops).groups 1 ≠ none := by
  induction ops with
  | nil => intro m h; exact h
  | cons op rest ih =>
    intro m h
    apply ih
    cases op with
    | createGroup name =>
      show mapFind (mapAssign m.groups m.nextGroupID _) 1 ≠ none
      rw [mapFind_mapAssign]
      by_cases h1 : 1 = m.nextGroupID
      · rw [if_pos h1]; exact Option.some_ne_none _
      · rw [if_neg h1]; exact h
    | joinGroup c g => exact (joinGroup_groups_ne_none m c g 1).mpr h
    | leaveGroup c => exact (leaveGroup_groups_ne_none m c 1).mpr h

theorem createGroup_fst (m : GroupManager) (name : List Nat) :
    (m.createGroup name).1 = m.nextGroupID := rfl

/-- C10, counterexample. `nextGroupID` is a 16-bit counter: the 65535th
`createGroup` call after construction returns 0, not 65536; and the 65536th
returns 1, the identifier of a group that exists at that time. -/
theorem createGroup_counterexample :
    ((GroupManager.new.run (List.replicate 65534 (RegistryOp.createGroup []))).createGroup
      []).1 = 0 ∧
    ((GroupManager.new.run (List.replicate 65535 (RegistryOp.createGroup []))).createGroup
      []).1 = 1 ∧
    mapFind (GroupManager.new.run (List.replicate 65535 (RegistryOp.createGroup []))).groups 1 ≠
      none := by
  refine ⟨?_, ?_, general_exists _ _ (by decide)⟩
  · have h := (reachable_tracks (List.replicate 65534 (RegistryOp.createGroup []))).1
    rw [createCount_replicate] at h
    generalize GroupManager.new.run (List.replicate 65534 (RegistryOp.createGroup [])) = m at h
    rw [createGroup_fst, h]
    decide
  · have h := (reachable_tracks (List.replicate 65535 (RegistryOp.createGroup []))).1
    rw [createCount_replicate] at h
    generalize GroupManager.new.run (List.replicate 65535 (RegistryOp.createGroup [])) = m at h
    rw [createGroup_fst, h]
    decide

/-- C10, amended. Group 1 is the pre-created "General". For every sequence of
registry operations made after construction that contains fewer than 65534
`createGroup` calls, the next `createGroup(name)`, the `k`-th with
`k <= 65534`, returns `k + 1`; no group had that identifier before the call,
every other group is left as it was, and the new group has the given name and
an empty member set. -/
theorem createGroup_sequential (ops : List RegistryOp) (name : List Nat)
    (hk : createCount ops + 1 ≤ 65534) :
    mapFind GroupManager.new.groups 1 =
      some { groupID := 1, groupName := cstr "General", members := [] } ∧
    ((GroupManager.new.run ops).createGroup name).1 = (createCount ops + 1) + 1 ∧
    mapFind (GroupManager.new.run ops).groups ((createCount ops + 1) + 1) = none ∧
    (∀ g, g ≠ (createCount ops + 1) + 1 →
      mapFind ((GroupManager.new.run ops).createGroup name).2.groups g =
        mapFind (GroupManager.new.run ops).groups g) ∧
    mapFind ((GroupManager.new.run ops).createGroup name).2.groups ((createCount ops + 1) + 1) =
      some { groupID := (createCount ops + 1) + 1, groupName := name, members := [] } ∧
    ((GroupManager.new.run ops).createGroup name).2.getGroupMembers ((createCount ops + 1) + 1) =
      [] := by
  obtain ⟨hnext, hkeys⟩ := reachable_tracks ops
  generalize GroupManager.new.run ops = m at hnext hkeys
  have hnext' : m.nextGroupID = createCount ops + 1 + 1 := by
    rw [hnext]
    have : 2 + createCount ops < 2 ^ 16 := by omega
    rw [Nat.mod_eq_of_lt this]
    omega
  have hfresh : mapFind m.groups (createCount ops + 1 + 1) = none := by
    by_contra hne
    have := hkeys (by omega) _ hne
    omega
  have hnew : mapFind (m.createGroup name).2.groups (createCount ops + 1 + 1) =
      some { groupID := createCount ops + 1 + 1, groupName := name, members := [] } := by
    unfold GroupManager.createGroup
    simp only [mapFind_mapAssign, hnext', if_true]
  refine ⟨rfl, hnext', hfresh, ?_, hnew, ?_⟩
  · intro g hg
    unfold GroupManager.createGroup
    simp only [mapFind_mapAssign, hnext', if_neg hg]
  · unfold GroupManager.getGroupMembers
    rw [hnew]
    rfl

/-- C10, witness: the second `createGroup` call returns 3. -/
theorem createGroup_sequential_witness :
    ((GroupManager.new.run
      [RegistryOp.createGroup (cstr "Team"), RegistryOp.joinGroup 7 2]).createGroup
        (cstr "Other")).1 = 3 :=
  (createGroup_sequential [RegistryOp.createGroup (cstr "Team"), RegistryOp.joinGroup 7 2]
    (cstr "Other") (by decide)).2.1

/-! ## Membership index (C11) -/

theorem find_modify_add (groups : List (Nat × ChatGroup)) (g k c x : Nat) (grp : ChatGroup)
    (hgrp : mapFind groups g = some grp) (hmem : x ∈ grp.members) :
    ∃ grp', mapFind (mapModify groups k (fun g => g.addMember c)) g = some grp' ∧
      x ∈ grp'.members := by
  rw [mapFind_mapModify]
  by_cases hg : g = k
  · rw [if_pos hg, hgrp]
    exact ⟨_, rfl, (mem_addMember grp c x).mpr (Or.inl hmem)⟩
  · rw [if_neg hg]; exact ⟨grp, hgrp, hmem⟩

theorem find_modify_remove (groups : List (Nat × ChatGroup)) (g k c x : Nat) (grp : ChatGroup)
    (hgrp : mapFind groups g = some grp) (hmem : x ∈ grp.members) (hx : x ≠ c) :
    ∃ grp', mapFind (mapModify groups k (fun g => g.removeMember c)) g = some grp' ∧
      x ∈ grp'.members := by
  rw [mapFind_mapModify]
  by_cases hg : g = k
  · rw [if_pos hg, hgrp]
    exact ⟨_, rfl, (mem_removeMember grp c x).mpr ⟨hmem, hx⟩⟩
  · rw [if_neg hg]; exact ⟨grp, hgrp, hmem⟩

theorem find_modify_add_self (groups : List (Nat × ChatGroup)) (g c : Nat)
    (h : mapFind groups g ≠ none) :
    ∃ grp', mapFind (mapModify groups g (fun g => g.addMember c)) g = some grp' ∧
      c ∈ grp'.members := by
  rw [mapFind_mapModify, if_pos rfl]
  cases hf : mapFind groups g with
  | none => exact absurd hf h
  | some old => exact ⟨_, rfl, (mem_addMember old c c).mpr (Or.inr rfl)⟩

/-- A successful `joinGroup`: the target exists, so the call returns true,
the client is a member of the target and the target is its current group. -/
theorem joinGroup_success (m : GroupManager) (c g : Nat) (target : ChatGroup)
    (htarget : mapFind m.groups g = some target) :
    (m.joinGroup c g).1 = true ∧ c ∈ (m.joinGroup c g).2.getGroupMembers g ∧
      (m.joinGroup c g).2.getClientGroup c = g := by
  have hne : mapFind m.groups g ≠ none := by rw [htarget]; exact Option.some_ne_none _
  refine ⟨?_, ?_, ?_⟩
  · unfold GroupManager.joinGroup
    rw [htarget]
  · rw [mem_getGroupMembers]
    unfold GroupManager.joinGroup
    simp only [htarget]
    cases hcur : mapFind m.clientGroups c with
    | none => exact find_modify_add_self _ g c hne
    | some current =>
      exact find_modify_add_self _ g c ((mapFind_mapModify_ne_none _ _ _ _).mpr hne)
  · unfold GroupManager.joinGroup GroupManager.getClientGroup
    simp only [htarget, mapFind_mapAssign, if_true]

theorem run_append (m : GroupManager) (ops1 ops2 : List RegistryOp) :
    m.run (ops1 ++ ops2) = (m.run ops1).run ops2 := by
  unfold GroupManager.run
  rw [List.foldl_append]

/-- C11, at the failing input. After 65535 `createGroup` calls the 16-bit
counter has wrapped and a group with identifier 0 exists; `joinGroup(7, 0)`
then succeeds, client 7 is in the member set of group 0, and
`getClientGroup(7)` is 0, the value that stands for "not in any group". -/
theorem membership_index_after_wrap :
    ((GroupManager.new.run (List.replicate 65535 (RegistryOp.createGroup []))).joinGroup 7
      0).1 = true ∧
    7 ∈ ((GroupManager.new.run (List.replicate 65535 (RegistryOp.createGroup []))).joinGroup 7
      0).2.getGroupMembers 0 ∧
    ((GroupManager.new.run (List.replicate 65535 (RegistryOp.createGroup []))).joinGroup 7
      0).2.getClientGroup 7 = 0 := by
  have hnext := (reachable_tracks (List.replicate 65534 (RegistryOp.createGroup []))).1
  rw [createCount_replicate] at hnext
  have hsplit : List.replicate 65535 (RegistryOp.createGroup []) =
      List.replicate 65534 (RegistryOp.createGroup []) ++ [RegistryOp.createGroup []] :=
    List.replicate_succ' 65534 _
  rw [hsplit, run_append]
  generalize GroupManager.new.run (List.replicate 65534 (RegistryOp.createGroup [])) = s at hnext
  have hzero : s.nextGroupID = 0 := by rw [hnext]; decide
  have hgroup : mapFind (s.run [RegistryOp.createGroup []]).groups 0 =
      some { groupID := 0, groupName := [], members := [] } := by
    show mapFind (mapAssign s.groups s.nextGroupID _) 0 = _
    rw [mapFind_mapAssign, hzero, if_pos rfl]
  exact joinGroup_success _ 7 0 _ hgroup

/-- The inverse index points at member sets: the current group of a client is
a group that has the client as a member. -/
theorem createGroup_consistent (m : GroupManager) (k : Nat) (htr : m.Tracks k)
    (hk : k + 1 ≤ 65534)
    (h : ∀ c g, mapFind m.clientGroups c = some g → c ∈ m.getGroupMembers g) (name : List Nat) :
    ∀ c g, mapFind (m.createGroup name).2.clientGroups c = some g →
      c ∈ (m.createGroup name).2.getGroupMembers g := by
  intro c g hfind
  have hold := h c g hfind
  obtain ⟨grp, hgrp, hmem⟩ := (mem_getGroupMembers m g c).mp hold
  have hsmall : 2 + k < 2 ^ 16 := by omega
  have hnext : m.nextGroupID = 2 + k := by rw [htr.1]; exact Nat.mod_eq_of_lt hsmall
  have hlt := htr.2 (by omega) g (by rw [hgrp]; exact Option.some_ne_none _)
  rw [mem_getGroupMembers]
  refine ⟨grp, ?_, hmem⟩
  unfold GroupManager.createGroup
  simp only [mapFind_mapAssign]
  rw [if_neg (by omega), hgrp]

theorem joinGroup_consistent (m : GroupManager)
    (h : ∀ c g, mapFind m.clientGroups c = some g → c ∈ m.getGroupMembers g)
    (clientID groupID : Nat) :
    ∀ c g, mapFind (m.joinGroup clientID groupID).2.clientGroups c = some g →
      c ∈ (m.joinGroup clientID groupID).2.getGroupMembers g := by
  intro c g hfind
  cases htarget : mapFind m.groups groupID with
  | none =>
    have hsame : m.joinGroup clientID groupID = (false, m) := by
      unfold GroupManager.joinGroup; rw [htarget]
    rw [hsame] at hfind ⊢
    exact h c g hfind
  | some target =>
    by_cases hc : c = clientID
    · subst hc
      have hg : g = groupID := by
        unfold GroupManager.joinGroup at hfind
        simp only [htarget, mapFind_mapAssign, if_true, Option.some.injEq] at hfind
        exact hfind.symm
      rw [hg]
      exact (joinGroup_success m c groupID target htarget).2.1
    · unfold GroupManager.joinGroup at hfind ⊢
      simp only [htarget, mapFind_mapAssign, if_neg hc] at hfind ⊢
      obtain ⟨grp, hgrp, hmem⟩ := (mem_getGroupMembers m g c).mp (h c g hfind)
      rw [mem_getGroupMembers]
      cases hcur : mapFind m.clientGroups clientID with
      | none => exact find_modify_add _ g groupID clientID c grp hgrp hmem
      | some current =>
        obtain ⟨mid, hmid, hmidmem⟩ :=
          find_modify_remove m.groups g current clientID c grp hgrp hmem hc
        exact find_modify_add _ g groupID clientID c mid hmid hmidmem

theorem leaveGroup_consistent (m : GroupManager)
    (h : ∀ c g, mapFind m.clientGroups c = some g → c ∈ m.getGroupMembers g)
    (clientID : Nat) :
    ∀ c g, mapFind (m.leaveGroup clientID).clientGroups c = some g →
      c ∈ (m.leaveGroup clientID).getGroupMembers g := by
  intro c g hfind
  unfold GroupManager.leaveGroup at hfind ⊢
  cases hcur : mapFind m.clientGroups clientID with
  | none =>
    rw [hcur] at hfind
    simp only [hcur]
    exact h c g hfind
  | some current =>
    rw [hcur] at hfind
    simp only [mapFind_mapErase] at hfind ⊢
    by_cases hc : c = clientID
    · rw [if_pos hc] at hfind
      exact Option.noConfusion hfind
    · rw [if_neg hc] at hfind
      obtain ⟨grp, hgrp, hmem⟩ := (mem_getGroupMembers m g c).mp (h c g hfind)
      rw [mem_getGroupMembers]
      simp only [mapFind_mapModify]
      by_cases hgc : g = current
      · rw [if_pos hgc, hgrp]
        exact ⟨_, rfl, (mem_removeMember grp clientID c).mpr ⟨hmem, hc⟩⟩
      · rw [if_neg hgc]; exact ⟨grp, hgrp, hmem⟩

theorem run_consistent (ops : List RegistryOp) :
    ∀ (m : GroupManager) (k : Nat), m.Tracks k → k + createCount ops ≤ 65534 →
      (∀ c g, mapFind m.clientGroups c = some g → c ∈ m.getGroupMembers g) →
      ∀ c g, mapFind (m.run ops).clientGroups c = some g → c ∈ (m.run ops).getGroupMembers g := by
  induction ops with
  | nil => intro m k _ _ h; exact h
  | cons op rest ih =>
    intro m k htr hk h
    rw [createCount_cons] at hk
    refine ih (m.apply op) (k + createCount [op]) (apply_tracks m k htr op) (by omega) ?_
    cases op with
    | createGroup name =>
      exact createGroup_consistent m k htr (by simp [createCount] at hk; omega) h name
    | joinGroup clientID groupID => exact joinGroup_consistent m h clientID groupID
    | leaveGroup clientID => exact leaveGroup_consistent m h clientID

/-- Before the group counter wraps, that is after at most 65534 `createGroup`
calls, the membership index is consistent in both directions. -/
theorem membership_index_before_wrap (ops : List RegistryOp) (hk : createCount ops ≤ 65534) :
    (∀ c g : Nat, ((GroupManager.new.run ops).getClientGroup c = g ∧ g ≠ 0) ↔
      c ∈ (GroupManager.new.run ops).getGroupMembers g) ∧
    (∀ c : Nat, (GroupManager.new.run ops).getClientGroup c = 0 ↔
      ∀ g, c ∉ (GroupManager.new.run ops).getGroupMembers g) := by
  have hinv := run_inv ops GroupManager.new new_inv_registry
  have htr := reachable_tracks ops
  have hcons := run_consistent ops GroupManager.new 0 new_tracks (by omega)
    (by intro c g hf; simp [GroupManager.new, GroupManager.createGroup, mapFind] at hf)
  generalize GroupManager.new.run ops = m at hinv htr hcons
  have hpos : ∀ c g, c ∈ m.getGroupMembers g → mapFind m.clientGroups c = some g ∧ g ≠ 0 := by
    intro c g hmem
    obtain ⟨grp, hgrp, hm⟩ := (mem_getGroupMembers m g c).mp hmem
    have hlt := htr.2 (by omega) g (by rw [hgrp]; exact Option.some_ne_none _)
    exact ⟨hinv.member_index g grp c hgrp hm, by omega⟩
  constructor
  · intro c g
    constructor
    · rintro ⟨hget, hne⟩
      unfold GroupManager.getClientGroup at hget
      cases hf : mapFind m.clientGroups c with
      | none => rw [hf] at hget; exact absurd hget.symm hne
      | some g' =>
        rw [hf] at hget
        simp only at hget
        rw [← hget]
        exact hcons c g' hf
    · intro hmem
      have := hpos c g hmem
      unfold GroupManager.getClientGroup
      rw [this.1]
      exact ⟨rfl, this.2⟩
  · intro c
    constructor
    · intro hget g hmem
      have := hpos c g hmem
      unfold GroupManager.getClientGroup at hget
      rw [this.1] at hget
      exact this.2 hget
    · intro hnone
      unfold GroupManager.getClientGroup
      cases hf : mapFind m.clientGroups c with
      | none => rfl
      | some g' => exact absurd (hcons c g' hf) (hnone g')

/-! ## TEXT messages (C12, C13) -/

/-- The turn of the loop for a `TEXT` packet: the stamped packet is put into
the cache and one response is sent. -/
theorem handlePacket_text (littleEndian : Bool) (tps : Nat) (now : Int) (srv : Server)
    (clientID : Nat) (raw : ChatPacket) (htype : (raw.toHostOrder littleEndian).type = MSG_TEXT) :
    handlePacket littleEndian tps now srv clientID raw =
      ({ srv with
          messageCache := srv.messageCache.put
            { raw.toHostOrder littleEndian with
              senderID := clientID, timestamp := getCurrentTimestamp tps now } 3600 now },
        [sendResponse littleEndian
          { ChatPacket.new with
            senderID := 0
            timestamp := getCurrentTimestamp tps now
            type := MSG_ACK
            payload := snprintfPayload (cstr "Message sent") }]) := by
  unfold handlePacket
  simp only [htype]
  rfl

theorem sampleText_type : (sampleText.toHostOrder true).type = MSG_TEXT := rfl

/-- C12, counterexample. Clients 7 and 8 are the members of group 1, on the
sockets 4 and 5. When the dispatcher handles a `TEXT` packet of client 7 for
group 1, the only `send` call writes the `ACK` to socket 4: nothing is written
to socket 5, the connection of the other member. -/
theorem text_fanout_counterexample :
    sampleServer.groupManager.getGroupMembers 1 = [8, 7] ∧
    (sampleText.toHostOrder true).type = MSG_TEXT ∧
    (sampleText.toHostOrder true).groupID = 1 ∧
    (sendCalls true 1000 5000 sampleServer 4 7 sampleText).map (fun s => (s.1, s.2.type)) =
      [(4, MSG_ACK)] ∧
    (sendCalls true 1000 5000 sampleServer 4 7 sampleText).filter (fun s => decide (s.1 = 5)) =
      [] := by
  refine ⟨by decide, rfl, by decide, ?_, ?_⟩
  · unfold sendCalls
    rw [handlePacket_text true 1000 5000 sampleServer 7 sampleText sampleText_type]
    rfl
  · unfold sendCalls
    rw [handlePacket_text true 1000 5000 sampleServer 7 sampleText sampleText_type]
    rfl

/-- C12, amended. When the dispatcher handles a `TEXT` packet from client `A`,
whatever the group addressed and its members, exactly one `send` call is made:
it writes a response of type `MSG_ACK` with the payload text "Message sent" to
the socket of `A`. No packet is written to any other socket, so no other
member of the group receives the message (the broadcast is only logged). -/
theorem text_only_acknowledged (littleEndian : Bool) (tps : Nat) (now : Int) (srv : Server)
    (client_socket A : Nat) (raw : ChatPacket)
    (htype : (raw.toHostOrder littleEndian).type = MSG_TEXT) :
    (∃ ack : ChatPacket,
      sendCalls littleEndian tps now srv client_socket A raw = [(client_socket, ack)] ∧
      ack.type = MSG_ACK ∧ cString ack.payload = cstr "Message sent") ∧
    ∀ other : Nat, other ≠ client_socket →
      ∀ s ∈ sendCalls littleEndian tps now srv client_socket A raw, s.1 ≠ other := by
  have hsend : sendCalls littleEndian tps now srv client_socket A raw =
      [(client_socket, sendResponse littleEndian
        { ChatPacket.new with
          senderID := 0
          timestamp := getCurrentTimestamp tps now
          type := MSG_ACK
          payload := snprintfPayload (cstr "Message sent") })] := by
    unfold sendCalls
    rw [handlePacket_text littleEndian tps now srv A raw htype]
    rfl
  constructor
  · refine ⟨_, hsend, rfl, ?_⟩
    exact cString_snprintfPayload (cstr "Message sent") (by decide) (by decide)
  · intro other hother s hs
    rw [hsend, List.mem_singleton] at hs
    rw [hs]
    exact fun h => hother h.symm

/-- C12, witness: the `TEXT` packet of client 7 on socket 4 in the concrete
server. -/
theorem text_only_acknowledged_witness :
    (sendCalls true 1000 5000 sampleServer 4 7 sampleText).map Prod.fst = [4] := by
  obtain ⟨ack, h, -, -⟩ :=
    (text_only_acknowledged true 1000 5000 sampleServer 4 7 sampleText sampleText_type).1
  rw [h]
  rfl

/-- An entry is not expired at the clock reading at which it was created. -/
theorem isExpired_at_creation (tps : Nat) (p : ChatPacket) (now : Int) (ttl : Nat) :
    ({ message := p, timestamp := now, ttl := ttl } : CacheEntry).isExpired tps now = false := by
  unfold CacheEntry.isExpired
  simp only [sub_self, Int.zero_tdiv, gt_iff_lt, decide_eq_false_iff_not, not_lt]
  exact Int.ofNat_nonneg ttl

/-- After a `put` into a reachable cache of capacity at least 1 the new node is
the head of the recency list. -/
theorem put_head (tps cap : Nat) (c : LRUCache) (h : LRUCache.Reachable tps cap c)
    (hcap : 1 ≤ cap) (packet : ChatPacket) (ttl : Nat) (now : Int) :
    ∃ rest, (c.put packet ttl now).cacheList =
      { id := c.nextNode, entry := { message := packet, timestamp := now, ttl := ttl } } ::
        rest := by
  obtain ⟨hinv, hc⟩ := reachable_inv tps cap c h
  rw [put_list c hinv, hc]
  obtain ⟨k, rfl⟩ : ∃ k, cap = k + 1 := ⟨cap - 1, by omega⟩
  rw [List.take_succ_cons]
  exact ⟨_, rfl⟩

/-- C13. TEXT stamping and caching: for every received `TEXT` packet handled
for client `c` at clock reading `now`, whatever its sender and timestamp
fields and whatever the registry holds, with a reachable message cache of
capacity at least 1 (the server constructs it with 200): the packet at the
front of the cache afterwards has `senderID = c`, the timestamp
`getCurrentTimestamp` of `now`, and the group, payload and type of the inbound
packet; `getGroupHistory(groupID, 1)` at the same clock reading returns
exactly that packet; the registry is unchanged; and the only packet sent is a
response of type `MSG_ACK` with sender 0 and the payload text "Message sent". -/
theorem text_stamped_and_cached (littleEndian : Bool) (tps cap : Nat) (now : Int)
    (srv : Server) (hreach : LRUCache.Reachable tps cap srv.messageCache) (hcap : 1 ≤ cap)
    (c : Nat) (raw : ChatPacket) (htype : (raw.toHostOrder littleEndian).type = MSG_TEXT) :
    (∃ stored : ChatPacket,
      stored.senderID = c ∧ stored.timestamp = getCurrentTimestamp tps now ∧
      stored.groupID = (raw.toHostOrder littleEndian).groupID ∧
      stored.payload = raw.payload ∧ stored.type = MSG_TEXT ∧
      (handlePacket littleEndian tps now srv c raw).1.messageCache.cacheList.head? =
        some { id := srv.messageCache.nextNode,
               entry := { message := stored, timestamp := now, ttl := 3600 } } ∧
      (handlePacket littleEndian tps now srv c raw).1.messageCache.getGroupHistory tps
        (raw.toHostOrder littleEndian).groupID 1 now = [stored]) ∧
    (handlePacket littleEndian tps now srv c raw).1.groupManager = srv.groupManager ∧
    ∃ response : ChatPacket,
      (handlePacket littleEndian tps now srv c raw).2 = [response] ∧
      response.type = MSG_ACK ∧ (response.toHostOrder littleEndian).senderID = 0 ∧
      cString response.payload = cstr "Message sent" := by
  rw [handlePacket_text littleEndian tps now srv c raw htype]
  refine ⟨⟨{ raw.toHostOrder littleEndian with
      senderID := c, timestamp := getCurrentTimestamp tps now }, rfl, rfl, rfl, rfl, htype,
      ?_, ?_⟩, rfl, _, rfl, rfl, ?_, ?_⟩
  · obtain ⟨rest, hrest⟩ := put_head tps cap srv.messageCache hreach hcap
      { raw.toHostOrder littleEndian with
        senderID := c, timestamp := getCurrentTimestamp tps now } 3600 now
    show (LRUCache.put _ _ _ _).cacheList.head? = _
    rw [hrest]
    rfl
  · obtain ⟨rest, hrest⟩ := put_head tps cap srv.messageCache hreach hcap
      { raw.toHostOrder littleEndian with
        senderID := c, timestamp := getCurrentTimestamp tps now } 3600 now
    show (LRUCache.put _ _ _ _).getGroupHistory tps _ 1 now = _
    rw [getGroupHistory_eq, hrest, List.filter_cons_of_pos]
    · rfl
    · unfold historyMatch
      rw [isExpired_at_creation]
      simp
  · cases littleEndian
    · rfl
    · show bswap32 (bswap32 0) = 0
      decide
  · exact cString_snprintfPayload (cstr "Message sent") (by decide) (by decide)

/-- C13, witness: the concrete `TEXT` packet of client 7, handled at clock
reading 5000 of a clock with 1000 ticks per second on the concrete server. -/
theorem text_stamped_and_cached_witness :
    ((handlePacket true 1000 5000 sampleServer 7 sampleText).1.messageCache.getGroupHistory 1000
      1 1 5000).map (fun p => (p.senderID, p.timestamp, p.groupID)) = [(7, 5, 1)] ∧
    (handlePacket true 1000 5000 sampleServer 7 sampleText).1.groupManager =
      sampleServer.groupManager ∧
    (handlePacket true 1000 5000 sampleServer 7 sampleText).1.messageCache.getGroupHistory 1000
      1 1 5000 = [sampleTextStamped] := by
  have h := text_stamped_and_cached true 1000 200 5000 sampleServer LRUCache.Reachable.new
    (by decide) 7 sampleText sampleText_type
  obtain ⟨⟨stored, h1, h2, h3, -, -, -, h7⟩, hreg, -⟩ := h
  refine ⟨?_, hreg, rfl⟩
  have hgroup : (sampleText.toHostOrder true).groupID = 1 := by decide
  rw [hgroup] at h7 h3
  have htime : getCurrentTimestamp 1000 5000 = 5 := by decide
  rw [h7, List.map_singleton, h1, h2, h3, htime]

/-! ## Task scheduler: round robin (C14) -/

theorem pool_run_append (p : ThreadPool) (e1 e2 : List PoolEvent) :
    p.run (e1 ++ e2) = (p.run e1).run e2 := by
  unfold ThreadPool.run
  rw [List.foldl_append]

theorem pool_run_cons (p : ThreadPool) (e : PoolEvent) (rest : List PoolEvent) :
    p.run (e :: rest) = (p.step e).run rest := rfl

/-- A worker pass on a round-robin pool whose worker is running and whose
queue is not empty takes the front task and runs it. -/
theorem workerTurn_rr (p : ThreadPool) (elapsed : Nat) (task : Task) (rest : List Task)
    (hpol : p.policy = SchedulingPolicy.ROUND_ROBIN) (hq : p.rrQueue = task :: rest)
    (hex : p.exited = false) :
    p.workerTurn elapsed =
      { p with
        rrQueue := rest
        executed := p.executed ++ [task]
        tasksProcessed := (p.tasksProcessed + 1) % 2 ^ 64
        totalWaitTime := (p.totalWaitTime + elapsed) % 2 ^ 64 } := by
  unfold ThreadPool.workerTurn ThreadPool.dequeue
  simp [hpol, hq, hex]

/-- A worker pass on a round-robin pool with empty queues changes neither the
queue nor the record of executed tasks. -/
theorem workerTurn_rr_empty (p : ThreadPool) (elapsed : Nat) (hq : p.rrQueue = [])
    (hs : p.sjfQueue = []) :
    (p.workerTurn elapsed).rrQueue = [] ∧ (p.workerTurn elapsed).executed = p.executed ∧
      (p.workerTurn elapsed).policy = p.policy ∧ (p.workerTurn elapsed).sjfQueue = [] := by
  unfold ThreadPool.workerTurn ThreadPool.dequeue
  by_cases hex : p.exited = true
  · simp [hex, hq, hs]
  · by_cases hstop : p.stop = true
    · simp [hex, hq, hs, hstop]
    · simp [hex, hq, hs, hstop]

theorem workerTurn_exited (p : ThreadPool) (elapsed : Nat) (hex : p.exited = true) :
    p.workerTurn elapsed = p := by
  unfold ThreadPool.workerTurn
  simp [hex]

/-- One event on a round-robin pool: the executed tasks followed by the queued
ones grow by the task enqueued, if any. -/
theorem step_rr (p : ThreadPool) (e : PoolEvent)
    (hpol : p.policy = SchedulingPolicy.ROUND_ROBIN) (hs : p.sjfQueue = []) :
    (p.step e).policy = SchedulingPolicy.ROUND_ROBIN ∧ (p.step e).sjfQueue = [] ∧
      (p.step e).executed ++ (p.step e).rrQueue =
        p.executed ++ p.rrQueue ++ enqueuedTasks [e] := by
  cases e with
  | enqueue task =>
    simp [ThreadPool.step, ThreadPool.enqueue, hpol, hs, enqueuedTasks]
  | workerTurn elapsed =>
    simp only [ThreadPool.step, enqueuedTasks, List.append_nil]
    by_cases hex : p.exited = true
    · rw [workerTurn_exited p elapsed hex]
      exact ⟨hpol, hs, rfl⟩
    · cases hq : p.rrQueue with
      | nil =>
        obtain ⟨h1, h2, h3, h4⟩ := workerTurn_rr_empty p elapsed hq hs
        rw [h1, h2, h3]
        exact ⟨hpol, h4, rfl⟩
      | cons task rest =>
        rw [workerTurn_rr p elapsed task rest hpol hq (by simpa using hex)]
        simp [hpol, hs]
  | shutdown =>
    simp [ThreadPool.step, ThreadPool.shutdown, hpol, hs, enqueuedTasks]

theorem enqueuedTasks_cons (e : PoolEvent) (rest : List PoolEvent) :
    enqueuedTasks (e :: rest) = enqueuedTasks [e] ++ enqueuedTasks rest := by
  cases e <;> simp [enqueuedTasks]

theorem run_rr (events : List PoolEvent) :
    ∀ p : ThreadPool, p.policy = SchedulingPolicy.ROUND_ROBIN → p.sjfQueue = [] →
      (p.run events).policy = SchedulingPolicy.ROUND_ROBIN ∧ (p.run events).sjfQueue = [] ∧
        (p.run events).executed ++ (p.run events).rrQueue =
          p.executed ++ p.rrQueue ++ enqueuedTasks events := by
  induction events with
  | nil => intro p hpol hs; simp [ThreadPool.run, enqueuedTasks, hpol, hs]
  | cons e rest ih =>
    intro p hpol hs
    obtain ⟨h1, h2, h3⟩ := step_rr p e hpol hs
    obtain ⟨g1, g2, g3⟩ := ih (p.step e) h1 h2
    rw [pool_run_cons]
    refine ⟨g1, g2, ?_⟩
    rw [g3, h3, enqueuedTasks_cons e rest, List.append_assoc]

/-- Enough worker passes empty the round-robin queue, in queue order. -/
theorem drain_rr (elapsed : List Nat) :
    ∀ p : ThreadPool, p.policy = SchedulingPolicy.ROUND_ROBIN → p.exited = false →
      elapsed.length = p.rrQueue.length →
      (p.run (elapsed.map PoolEvent.workerTurn)).executed = p.executed ++ p.rrQueue ∧
        (p.run (elapsed.map PoolEvent.workerTurn)).rrQueue = [] := by
  induction elapsed with
  | nil =>
    intro p _ _ hlen
    have hq : p.rrQueue = [] := List.length_eq_zero.mp hlen.symm
    simp [ThreadPool.run, hq]
  | cons t rest ih =>
    intro p hpol hex hlen
    cases hq : p.rrQueue with
    | nil => rw [hq] at hlen; simp at hlen
    | cons task tail =>
      rw [hq] at hlen
      have hstep : p.step (PoolEvent.workerTurn t) = p.workerTurn t := rfl
      rw [List.map_cons, pool_run_cons, hstep, workerTurn_rr p t task tail hpol hq hex]
      have := ih
        { p with
          rrQueue := tail
          executed := p.executed ++ [task]
          tasksProcessed := (p.tasksProcessed + 1) % 2 ^ 64
          totalWaitTime := (p.totalWaitTime + t) % 2 ^ 64 } hpol hex
        (by simpa using hlen)
      simpa using this

theorem step_not_exited (p : ThreadPool) (e : PoolEvent) (hstop : p.stop = false)
    (hex : p.exited = false) (he : e ≠ PoolEvent.shutdown) :
    (p.step e).stop = false ∧ (p.step e).exited = false := by
  cases e with
  | enqueue task =>
    unfold ThreadPool.step ThreadPool.enqueue
    by_cases hpol : p.policy = SchedulingPolicy.ROUND_ROBIN <;> simp [hpol, hstop, hex]
  | workerTurn elapsed =>
    unfold ThreadPool.step ThreadPool.workerTurn
    simp only [hex, hstop, Bool.false_eq_true, if_false, false_or, false_and]
    split
    · exact ⟨hstop, hex⟩
    · cases hd : p.dequeue with
      | none => exact ⟨hstop, hex⟩
      | some pair =>
        obtain ⟨task, rest⟩ := pair
        have hrest : rest.stop = p.stop ∧ rest.exited = p.exited := by
          unfold ThreadPool.dequeue at hd
          split at hd
          · split at hd
            · simp only [Option.some.injEq, Prod.mk.injEq] at hd
              rw [← hd.2]; exact ⟨rfl, rfl⟩
            · exact Option.noConfusion hd
          · split at hd
            · split at hd
              · simp only [Option.some.injEq, Prod.mk.injEq] at hd
                rw [← hd.2]; exact ⟨rfl, rfl⟩
              · exact Option.noConfusion hd
            · exact Option.noConfusion hd
        simp only
        exact ⟨hrest.1.trans hstop, hrest.2.trans hex⟩
  | shutdown => exact absurd rfl he

theorem run_not_exited (events : List PoolEvent) :
    ∀ p : ThreadPool, p.stop = false → p.exited = false →
      (∀ e ∈ events, e ≠ PoolEvent.shutdown) →
      (p.run events).stop = false ∧ (p.run events).exited = false := by
  induction events with
  | nil => intro p hs he _; exact ⟨hs, he⟩
  | cons e rest ih =>
    intro p hs he hno
    obtain ⟨h1, h2⟩ := step_not_exited p e hs he (hno e (List.mem_cons_self _ _))
    exact ih (p.step e) h1 h2 (fun x hx => hno x (List.mem_cons_of_mem _ hx))

/-- C14. Round-robin order: for a pool with one worker under `ROUND_ROBIN` and
every interleaving of `enqueue` calls, worker passes and the start of the
destructor, the tasks executed so far followed by the tasks still queued are
the tasks enqueued so far, in the order of the `enqueue` calls; the worker
does not return before the destructor has started; and while the worker is
running, as many further passes as there are queued tasks leave the queue
empty and the executed tasks equal to the enqueued tasks, in that order, each
once. -/
theorem round_robin_order (events : List PoolEvent) :
    ((ThreadPool.new SchedulingPolicy.ROUND_ROBIN).run events).executed ++
        ((ThreadPool.new SchedulingPolicy.ROUND_ROBIN).run events).rrQueue =
      enqueuedTasks events ∧
    ((∀ e ∈ events, e ≠ PoolEvent.shutdown) →
      ((ThreadPool.new SchedulingPolicy.ROUND_ROBIN).run events).exited = false) ∧
    (((ThreadPool.new SchedulingPolicy.ROUND_ROBIN).run events).exited = false →
      ∀ elapsed : List Nat,
        elapsed.length =
          ((ThreadPool.new SchedulingPolicy.ROUND_ROBIN).run events).rrQueue.length →
        (((ThreadPool.new SchedulingPolicy.ROUND_ROBIN).run events).run
          (elapsed.map PoolEvent.workerTurn)).executed = enqueuedTasks events ∧
        (((ThreadPool.new SchedulingPolicy.ROUND_ROBIN).run events).run
          (elapsed.map PoolEvent.workerTurn)).rrQueue = []) := by
  obtain ⟨hpol, -, hlog⟩ := run_rr events (ThreadPool.new SchedulingPolicy.ROUND_ROBIN) rfl rfl
  have hlog' : ((ThreadPool.new SchedulingPolicy.ROUND_ROBIN).run events).executed ++
      ((ThreadPool.new SchedulingPolicy.ROUND_ROBIN).run events).rrQueue =
        enqueuedTasks events := by
    rw [hlog]; rfl
  refine ⟨hlog', ?_, ?_⟩
  · intro hno
    exact (run_not_exited events _ rfl rfl hno).2
  · intro hex elapsed hlen
    obtain ⟨h1, h2⟩ := drain_rr elapsed _ hpol hex hlen
    exact ⟨by rw [h1, hlog'], h2⟩

/-- C14, witness: three tasks are enqueued, the worker runs one of them
between the second and the third call, and two further passes follow. -/
theorem round_robin_order_witness :
    ((ThreadPool.new SchedulingPolicy.ROUND_ROBIN).run
      ((sampleTasks.take 2).map PoolEvent.enqueue ++ [PoolEvent.workerTurn 5] ++
        (sampleTasks.drop 2).map PoolEvent.enqueue ++
        [PoolEvent.workerTurn 7, PoolEvent.workerTurn 9])).executed = sampleTasks := by
  have h := (round_robin_order
    ((sampleTasks.take 2).map PoolEvent.enqueue ++ [PoolEvent.workerTurn 5] ++
      (sampleTasks.drop 2).map PoolEvent.enqueue)).2.2 (by decide) [7, 9] (by decide)
  rw [pool_run_append]
  exact h.1

/-! ## Task scheduler: shortest job first (C15) -/

theorem exists_min_task (q : List Task) (hq : q ≠ []) :
    ∃ t ∈ q, ∀ u ∈ q, t.estimatedTime ≤ u.estimatedTime := by
  induction q with
  | nil => exact absurd rfl hq
  | cons a rest ih =>
    by_cases hrest : rest = []
    · subst hrest
      exact ⟨a, List.mem_cons_self _ _, fun u hu => by
        rw [List.mem_singleton.mp hu]⟩
    · obtain ⟨m, hm, hmin⟩ := ih hrest
      by_cases hle : a.estimatedTime ≤ m.estimatedTime
      · refine ⟨a, List.mem_cons_self _ _, fun u hu => ?_⟩
        rcases List.mem_cons.mp hu with rfl | hu
        · exact Nat.le_refl _
        · exact Nat.le_trans hle (hmin u hu)
      · refine ⟨m, List.mem_cons_of_mem _ hm, fun u hu => ?_⟩
        rcases List.mem_cons.mp hu with rfl | hu
        · omega
        · exact hmin u hu

theorem top_test_iff (q : List Task) (t : Task) :
    q.all (fun u => !t.lt u) = true ↔ ∀ u ∈ q, t.estimatedTime ≤ u.estimatedTime := by
  rw [List.all_eq_true]
  constructor
  · intro h u hu
    have := h u hu
    unfold Task.lt at this
    simpa using this
  · intro h u hu
    unfold Task.lt
    simpa using h u hu

/-- What `top` returns is in the queue and has the least estimated time. -/
theorem priorityTop_spec (q : List Task) (t : Task) (h : priorityTop q = some t) :
    t ∈ q ∧ ∀ u ∈ q, t.estimatedTime ≤ u.estimatedTime := by
  unfold priorityTop at h
  have htest : q.all (fun u => !t.lt u) = true :=
    @List.find?_some _ (fun t : Task => q.all (fun u => !t.lt u)) _ _ h
  exact ⟨List.mem_of_find?_eq_some h, (top_test_iff q t).mp htest⟩

/-- A queue that is not empty has a top. -/
theorem priorityTop_exists (q : List Task) (hq : q ≠ []) : ∃ t, priorityTop q = some t := by
  obtain ⟨m, hm, hmin⟩ := exists_min_task q hq
  have hsome : (priorityTop q).isSome = true := by
    unfold priorityTop
    rw [List.find?_isSome]
    exact ⟨m, hm, (top_test_iff q m).mpr hmin⟩
  exact Option.isSome_iff_exists.mp hsome

/-- The dequeue under `SHORTEST_JOB_FIRST`. -/
theorem dequeue_sjf (p : ThreadPool) (hpol : p.policy = SchedulingPolicy.SHORTEST_JOB_FIRST)
    (hq : p.sjfQueue ≠ []) :
    ∃ t, priorityTop p.sjfQueue = some t ∧
      p.dequeue = some (t, { p with sjfQueue := p.sjfQueue.erase t }) := by
  obtain ⟨t, ht⟩ := priorityTop_exists p.sjfQueue hq
  refine ⟨t, ht, ?_⟩
  unfold ThreadPool.dequeue
  simp [hpol, hq, ht]

theorem workerTurn_sjf (p : ThreadPool) (elapsed : Nat)
    (hpol : p.policy = SchedulingPolicy.SHORTEST_JOB_FIRST) (hq : p.sjfQueue ≠ [])
    (hex : p.exited = false) :
    ∃ t, priorityTop p.sjfQueue = some t ∧
      p.workerTurn elapsed =
        { p with
          sjfQueue := p.sjfQueue.erase t
          executed := p.executed ++ [t]
          tasksProcessed := (p.tasksProcessed + 1) % 2 ^ 64
          totalWaitTime := (p.totalWaitTime + elapsed) % 2 ^ 64 } := by
  obtain ⟨t, ht, hd⟩ := dequeue_sjf p hpol hq
  refine ⟨t, ht, ?_⟩
  unfold ThreadPool.workerTurn
  simp [hex, hq, hd]

theorem enqueueAll_sjf (ts : List Task) :
    ∀ p : ThreadPool, p.policy = SchedulingPolicy.SHORTEST_JOB_FIRST →
      p.run (ts.map PoolEvent.enqueue) = { p with sjfQueue := p.sjfQueue ++ ts } := by
  induction ts with
  | nil => intro p _; simp [ThreadPool.run]
  | cons t rest ih =>
    intro p hpol
    have hstep : p.step (PoolEvent.enqueue t) = { p with sjfQueue := p.sjfQueue ++ [t] } := by
      simp [ThreadPool.step, ThreadPool.enqueue, hpol]
    rw [List.map_cons, pool_run_cons, hstep, ih { p with sjfQueue := p.sjfQueue ++ [t] } hpol]
    simp

/-- Worker passes on a pool whose queued tasks have pairwise different
estimated times run them in strictly increasing order of estimated time. -/
theorem drain_sjf (elapsed : List Nat) :
    ∀ p : ThreadPool, p.policy = SchedulingPolicy.SHORTEST_JOB_FIRST → p.exited = false →
      (p.sjfQueue.map Task.estimatedTime).Nodup → elapsed.length = p.sjfQueue.length →
      ∃ r : List Task,
        (p.run (elapsed.map PoolEvent.workerTurn)).executed = p.executed ++ r ∧
        r.Perm p.sjfQueue ∧ (r.map Task.estimatedTime).Pairwise (· < ·) ∧
        (p.run (elapsed.map PoolEvent.workerTurn)).sjfQueue = [] := by
  induction elapsed with
  | nil =>
    intro p _ _ _ hlen
    have hq : p.sjfQueue = [] := List.length_eq_zero.mp hlen.symm
    exact ⟨[], by simp [ThreadPool.run], by rw [hq], by simp, by simp [ThreadPool.run, hq]⟩
  | cons e rest ih =>
    intro p hpol hex hnd hlen
    have hq : p.sjfQueue ≠ [] := by
      intro h; rw [h] at hlen; simp at hlen
    obtain ⟨t, ht, hturn⟩ := workerTurn_sjf p e hpol hq hex
    obtain ⟨htmem, htmin⟩ := priorityTop_spec _ _ ht
    have hstep : p.step (PoolEvent.workerTurn e) = p.workerTurn e := rfl
    have hsub : (p.sjfQueue.erase t).Sublist p.sjfQueue := List.erase_sublist _ _
    obtain ⟨r, hr1, hr2, hr3, hr4⟩ := ih
      { p with
        sjfQueue := p.sjfQueue.erase t
        executed := p.executed ++ [t]
        tasksProcessed := (p.tasksProcessed + 1) % 2 ^ 64
        totalWaitTime := (p.totalWaitTime + e) % 2 ^ 64 } hpol hex
      (hnd.sublist (hsub.map _))
      (by
        show rest.length = (p.sjfQueue.erase t).length
        rw [List.length_erase_of_mem htmem]
        simp only [List.length_cons] at hlen
        omega)
    rw [List.map_cons, pool_run_cons, hstep, hturn]
    refine ⟨t :: r, ?_, ?_, ?_, hr4⟩
    · rw [hr1]; simp
    · exact (List.Perm.cons t hr2).trans (List.perm_cons_erase htmem).symm
    · rw [List.map_cons, List.pairwise_cons]
      refine ⟨?_, hr3⟩
      intro x hx
      obtain ⟨u, hu, rfl⟩ := List.mem_map.mp hx
      have hu' : u ∈ p.sjfQueue.erase t := hr2.subset hu
      have hq_nodup : p.sjfQueue.Nodup := List.Nodup.of_map _ hnd
      have hmem := (List.Nodup.mem_erase_iff hq_nodup).mp hu'
      have hle := htmin u hmem.2
      have hne : t.estimatedTime ≠ u.estimatedTime := by
        intro heq
        exact hmem.1 (List.inj_on_of_nodup_map hnd hmem.2 htmem heq.symm)
      omega

/-- C15. Shortest-job-first order. In general: under `SHORTEST_JOB_FIRST`
every dequeue from a queue that is not empty returns a task of the queue whose
estimated time is at most that of every queued task, and removes it. And when
tasks with pairwise different estimated times are all enqueued on a new pool,
in any order, before the first dequeue, then as many worker passes as there are
tasks run all of them, each once, in strictly increasing order of estimated
time, and leave the queue empty. -/
theorem shortest_job_first_order :
    (∀ p : ThreadPool, p.policy = SchedulingPolicy.SHORTEST_JOB_FIRST → p.sjfQueue ≠ [] →
      ∃ t, p.dequeue = some (t, { p with sjfQueue := p.sjfQueue.erase t }) ∧
        t ∈ p.sjfQueue ∧ ∀ u ∈ p.sjfQueue, t.estimatedTime ≤ u.estimatedTime) ∧
    (∀ (ts : List Task) (elapsed : List Nat), (ts.map Task.estimatedTime).Nodup →
      elapsed.length = ts.length →
      ∃ r : List Task,
        ((ThreadPool.new SchedulingPolicy.SHORTEST_JOB_FIRST).run
          (ts.map PoolEvent.enqueue ++ elapsed.map PoolEvent.workerTurn)).executed = r ∧
        r.Perm ts ∧ (r.map Task.estimatedTime).Pairwise (· < ·) ∧
        ((ThreadPool.new SchedulingPolicy.SHORTEST_JOB_FIRST).run
          (ts.map PoolEvent.enqueue ++ elapsed.map PoolEvent.workerTurn)).sjfQueue = []) := by
  constructor
  · intro p hpol hq
    obtain ⟨t, ht, hd⟩ := dequeue_sjf p hpol hq
    obtain ⟨hmem, hmin⟩ := priorityTop_spec _ _ ht
    exact ⟨t, hd, hmem, hmin⟩
  · intro ts elapsed hnd hlen
    rw [pool_run_append, enqueueAll_sjf ts _ rfl]
    obtain ⟨r, h1, h2, h3, h4⟩ := drain_sjf elapsed
      { ThreadPool.new SchedulingPolicy.SHORTEST_JOB_FIRST with
        sjfQueue := (ThreadPool.new SchedulingPolicy.SHORTEST_JOB_FIRST).sjfQueue ++ ts }
      rfl rfl (by simpa [ThreadPool.new] using hnd) (by simpa [ThreadPool.new] using hlen)
    refine ⟨r, ?_, ?_, h3, h4⟩
    · rw [h1]; simp [ThreadPool.new]
    · simpa [ThreadPool.new] using h2

/-- C15, witness: the tasks with estimated times 30, 10, 20 are run in the
order 10, 20, 30. -/
theorem shortest_job_first_order_witness :
    (((ThreadPool.new SchedulingPolicy.SHORTEST_JOB_FIRST).run
      (sampleTasks.map PoolEvent.enqueue ++ [1, 1, 1].map PoolEvent.workerTurn)).executed.map
        Task.estimatedTime).Pairwise (· < ·) ∧
    ((ThreadPool.new SchedulingPolicy.SHORTEST_JOB_FIRST).run
      (sampleTasks.map PoolEvent.enqueue ++ [1, 1, 1].map PoolEvent.workerTurn)).executed.map
        Task.estimatedTime = [10, 20, 30] := by
  obtain ⟨r, h1, -, h3, -⟩ := shortest_job_first_order.2 sampleTasks [1, 1, 1] (by decide)
    (by decide)
  refine ⟨?_, by decide⟩
  rw [h1]
  exact h3

/-! ## Cache index and list agreement (C16) -/

/-- C16. Cache index/list agreement: in every state reachable from a newly
constructed cache by `put`, `get`, `getGroupHistory` and `clearExpired`, no two
nodes of the recency list hold packets with the same (groupID, timestamp) pair
or the same key; the key index binds each key once and has exactly the keys of
the nodes of the list; the index maps the key of every node to the iterator
that designates that node; and every iterator in the index designates a node
of the list whose key is the one it is bound to. -/
theorem index_list_agreement (tps cap : Nat) (c : LRUCache)
    (h : LRUCache.Reachable tps cap c) :
    (c.cacheList.map
      (fun n => (n.entry.message.groupID, n.entry.message.timestamp))).Nodup ∧
    (c.cacheList.map ListNode.key).Nodup ∧
    (c.cacheMap.map Prod.fst).Nodup ∧
    (∀ k, k ∈ c.cacheMap.map Prod.fst ↔ k ∈ c.cacheList.map ListNode.key) ∧
    (∀ n ∈ c.cacheList,
      mapFind c.cacheMap n.key = some n.id ∧ nodeAt c.cacheList n.id = some n.entry) ∧
    (∀ k it, mapFind c.cacheMap k = some it →
      ∃ e, nodeAt c.cacheList it = some e ∧
        ({ id := it, entry := e } : ListNode) ∈ c.cacheList ∧
        makeKey e.message.groupID e.message.timestamp = k) := by
  obtain ⟨hinv, -⟩ := reachable_inv tps cap c h
  have hcore := hinv.core
  refine ⟨?_, hcore.keys_nodup, hcore.map_nodup, fun k => hcore.index_keys.mem_iff, ?_, ?_⟩
  · have hmap : (c.cacheList.map
        (fun n => (n.entry.message.groupID, n.entry.message.timestamp))).map
          (fun pr => makeKey pr.1 pr.2) = c.cacheList.map ListNode.key := by
      rw [List.map_map]
      rfl
    exact List.Nodup.of_map _ (hmap ▸ hcore.keys_nodup)
  · intro n hn
    exact ⟨hcore.find_of_mem hn, nodeAt_of_mem _ n hn hcore.ids_nodup⟩
  · intro k it hfind
    obtain ⟨n, hn, hid, hkey⟩ := (hcore.index k it).mp hfind
    refine ⟨n.entry, ?_, ?_, hkey⟩
    · rw [← hid]; exact nodeAt_of_mem _ n hn hcore.ids_nodup
    · rw [← hid]; exact hn

/-- C16, witness: in the concrete cache of two entries the key of
`samplePacket` is bound to node 0, which holds `samplePacket`. -/
theorem index_list_agreement_witness :
    mapFind sampleCacheTwo.cacheMap (makeKey samplePacket.groupID samplePacket.timestamp) =
      some 0 ∧
    nodeAt sampleCacheTwo.cacheList 0 =
      some { message := samplePacket, timestamp := 0, ttl := 1 } := by
  have h := (index_list_agreement 1000 3 sampleCacheTwo (reachable_sampleCacheTwo 1000)).2.2.2.2.1
    { id := 0, entry := { message := samplePacket, timestamp := 0, ttl := 1 } } sampleCacheTwo_mem
  simp only [ListNode.key] at h
  exact h

end GroupChat
